import Mathlib

/-!
# Verification of the yabms schedule generator

Shallow embedding of the `yabms` sources (`permute.py`, `protoround.py`,
`coalesce.py`, and the `yabms.validate` package) together with proofs about
the embedded definitions.

Modelling conventions:

* A match is a `List ℕ` of team identifiers; a schedule is a `List (List ℕ)`.
* The Z3 solver calls in `protoround.py` and `coalesce.py` are modelled by
  a decidable predicate over candidate assignments (the exact conjunction of
  constraints the Python code adds to the solver) plus the extraction code
  run on a satisfying assignment.  A "successful run" is any assignment
  satisfying the predicate; theorems quantify over all such assignments.
  Solver variables are integers (`ℤ`), as Z3 `Int`s are.
* Python floats are idealised as real numbers (`ℝ`).  Control-flow decisions
  of `permute_zones` that the source makes by comparing float badness values
  are made here by comparing the integer `collisionWeight`; the lemmas
  `badness_lt_iff_collisionWeight_lt` and `badness_lt_epsilon_iff` prove
  that over the idealised reals those comparisons agree.
* `random.random()` / `random.shuffle` are modelled by an explicit oracle
  supplying the boolean outcome of each `random.random() < temperature`
  test and the permutation chosen by each shuffle.
* Python exceptions are modelled by `Option`/`Except` results.
-/

/-! ## List helpers -/

/-- `picks l` lists, for each index `i` in order, the pair of `l[i]` and the
remaining elements: the selection step of `itertools.permutations`. -/
def picks : List α → List (α × List α)
  | [] => []
  | x :: xs => (x, xs) :: (picks xs).map fun p => (p.1, x :: p.2)

/-- Auxiliary recursion (on length) for `permutationsPy`. -/
def permsAux : ℕ → List α → List (List α)
  | 0, _ => [[]]
  | n + 1, l => (picks l).flatMap fun p => (permsAux n p.2).map fun rest => p.1 :: rest

/-- `permutationsPy l` enumerates the permutations of `l` in the order
`itertools.permutations` produces them: selections by index in
lexicographic index order, so the first emitted permutation is `l` itself
(this order matters because `min` in `permute_zones` keeps the earliest
among equally-scoring permutations). -/
def permutationsPy (l : List α) : List (List α) :=
  permsAux l.length l

/-- `minBy f a l` mirrors Python `min([a] ++ l, key=f)`: the earliest element
achieving the minimal key. -/
def minBy (f : α → ℕ) : α → List α → α
  | a, [] => a
  | a, b :: l => if f b < f a then minBy f b l else minBy f a l

theorem minBy_mem (f : α → ℕ) (a : α) (l : List α) : minBy f a l = a ∨ minBy f a l ∈ l := by
  induction l generalizing a with
  | nil => exact Or.inl rfl
  | cons b t ih =>
    by_cases h : f b < f a
    · rcases ih b with h' | h'
      · exact Or.inr (by simp [minBy, h, h'])
      · exact Or.inr (by simp [minBy, h]; tauto)
    · rcases ih a with h' | h'
      · exact Or.inl (by simp [minBy, h, h'])
      · exact Or.inr (by simp [minBy, h]; tauto)

theorem mem_picks {l : List α} {p : α × List α} (hp : p ∈ picks l) :
    (p.1 :: p.2).Perm l ∧ p.2.length + 1 = l.length := by
  induction l generalizing p with
  | nil => simp [picks] at hp
  | cons x xs ih =>
    rcases List.mem_cons.1 hp with rfl | hmem
    · exact ⟨List.Perm.refl _, by simp⟩
    · rcases List.mem_map.1 hmem with ⟨q, hq, rfl⟩
      rcases ih hq with ⟨hperm, hlen⟩
      constructor
      · exact (List.Perm.swap x q.1 q.2).trans (List.Perm.cons x hperm)
      · simpa using congrArg Nat.succ hlen

theorem mem_permsAux {n : ℕ} {l m : List α} (hn : l.length = n) (hm : m ∈ permsAux n l) :
    m.Perm l := by
  induction n generalizing l m with
  | zero =>
    have : l = [] := List.length_eq_zero.1 hn
    subst this
    simp [permsAux] at hm
    simp [hm]
  | succ k ih =>
    simp only [permsAux, List.mem_flatMap, List.mem_map] at hm
    rcases hm with ⟨p, hp, rest, hrest, rfl⟩
    rcases mem_picks hp with ⟨hperm, hlen⟩
    have hrl : p.2.length = k := by omega
    exact (List.Perm.cons p.1 (ih hrl hrest)).trans hperm

theorem mem_permutationsPy {l m : List α} (hm : m ∈ permutationsPy l) : m.Perm l :=
  mem_permsAux rfl hm

/-! ## `permute.py` -/

/-- The stream of `(team, zone_number)` appearance events of a schedule, in
the order `collections.Counter` receives them in `_badness`. -/
def appearanceEvents (schedule : List (List ℕ)) : List (ℕ × ℕ) :=
  (schedule.map fun mtch => mtch.enum.map fun zt => (zt.2, zt.1)).flatten

/-- The multiset of values of the `appearance_counts` counter in `_badness`
(its keys are the distinct appearance events). -/
def counterValues (schedule : List (List ℕ)) : List ℕ :=
  (appearanceEvents schedule).dedup.map fun p => (appearanceEvents schedule).count p

/-- `_entropy(counter)`: the Shannon entropy of the normalised counter
values. -/
noncomputable def _entropy (counts : List ℕ) : ℝ :=
  -(counts.map fun x : ℕ =>
      ((x : ℝ) / (counts.sum : ℝ)) * Real.log ((x : ℝ) / (counts.sum : ℝ))).sum

/-- `_badness(schedule)`: `best_possible_entropy - entropy` where
`best_possible_entropy = log(sum(appearance_counts.values()))`. -/
noncomputable def _badness (schedule : List (List ℕ)) : ℝ :=
  Real.log ((counterValues schedule).sum : ℝ) - _entropy (counterValues schedule)

/-- Executable companion of `_badness`: `∏ c^c` over the counter values.
Since `_badness s = log (collisionWeight s) / N` (lemma
`badness_eq_log_collisionWeight`), comparing badness values of schedules
with the same number of appearance events is the same as comparing their
collision weights. -/
def collisionWeight (schedule : List (List ℕ)) : ℕ :=
  ((counterValues schedule).map fun c => c ^ c).prod

theorem counterValues_pos {s : List (List ℕ)} {c : ℕ} (hc : c ∈ counterValues s) : 0 < c := by
  rcases List.mem_map.1 hc with ⟨p, hp, rfl⟩
  exact List.count_pos_iff.2 (List.mem_dedup.1 hp)

theorem log_prod_pow_self (l : List ℕ) (hl : ∀ c ∈ l, 0 < c) :
    Real.log (((l.map fun c => c ^ c).prod : ℕ) : ℝ)
      = (l.map fun x : ℕ => (x : ℝ) * Real.log (x : ℝ)).sum := by
  induction l with
  | nil => simp
  | cons a t ih =>
    have ha : 0 < a := hl a (List.mem_cons_self a t)
    have ht := ih fun c hc => hl c (List.mem_cons_of_mem _ hc)
    have hprodpos : 0 < (t.map fun c => c ^ c).prod :=
      List.prod_pos (by
        intro x hx
        rcases List.mem_map.1 hx with ⟨c, hc, rfl⟩
        exact Nat.pos_pow_of_pos _ (hl c (List.mem_cons_of_mem _ hc)))
    rw [List.map_cons, List.prod_cons, List.map_cons, List.sum_cons, Nat.cast_mul,
      Real.log_mul (by positivity) (by exact_mod_cast hprodpos.ne'), ht, Nat.cast_pow,
      Real.log_pow]

theorem entropy_sum_shift (N : ℝ) (hN0 : 0 < N) (l : List ℕ) (hl : ∀ c ∈ l, 0 < c) :
    (l.map fun x : ℕ => ((x : ℝ) / N) * Real.log ((x : ℝ) / N)).sum
      = ((l.map fun x : ℕ => (x : ℝ) * Real.log (x : ℝ)).sum - (l.sum : ℝ) * Real.log N) / N := by
  induction l with
  | nil => simp
  | cons a t ih =>
    have ha : (0 : ℝ) < (a : ℝ) := by exact_mod_cast hl a (List.mem_cons_self a t)
    have ht := ih fun c hc => hl c (List.mem_cons_of_mem _ hc)
    have hlog : Real.log ((a : ℝ) / N) = Real.log a - Real.log N :=
      Real.log_div (ne_of_gt ha) (ne_of_gt hN0)
    rw [List.map_cons, List.sum_cons, List.map_cons, List.sum_cons, List.sum_cons, ht, hlog,
      Nat.cast_add]
    field_simp
    ring

theorem badness_eq_log_collisionWeight (s : List (List ℕ))
    (hN : 0 < (counterValues s).sum) :
    _badness s = Real.log (collisionWeight s) / ((counterValues s).sum : ℝ) := by
  have hN0 : (0 : ℝ) < ((counterValues s).sum : ℝ) := by exact_mod_cast hN
  have hshift := entropy_sum_shift ((counterValues s).sum : ℝ) hN0 (counterValues s)
    fun c hc => counterValues_pos hc
  have hw : Real.log ((collisionWeight s : ℕ) : ℝ)
      = ((counterValues s).map fun x : ℕ => (x : ℝ) * Real.log (x : ℝ)).sum :=
    log_prod_pow_self (counterValues s) fun c hc => counterValues_pos hc
  unfold _badness _entropy
  rw [hshift, ← hw, sub_div, mul_div_cancel_left₀ _ (ne_of_gt hN0)]
  ring

theorem collisionWeight_pos (s : List (List ℕ)) : 0 < collisionWeight s :=
  List.prod_pos (by
    intro x hx
    rcases List.mem_map.1 hx with ⟨c, hc, rfl⟩
    exact Nat.pos_pow_of_pos _ (counterValues_pos hc))

theorem collisionWeight_eq_one_iff (s : List (List ℕ)) :
    collisionWeight s = 1 ↔ ∀ p ∈ appearanceEvents s, (appearanceEvents s).count p = 1 := by
  have base : ∀ l : List ℕ, (∀ c ∈ l, 0 < c) → ((l.map fun c => c ^ c).prod = 1 ↔ ∀ c ∈ l, c = 1) := by
    intro l hl
    induction l with
    | nil => simp
    | cons a t ih =>
      have ha := hl a (List.mem_cons_self a t)
      have ht := ih fun c hc => hl c (List.mem_cons_of_mem _ hc)
      rw [List.map_cons, List.prod_cons]
      constructor
      · intro h c hc
        have h1 : a ^ a = 1 := Nat.eq_one_of_mul_eq_one_right h
        have h2 : (t.map fun c => c ^ c).prod = 1 := Nat.eq_one_of_mul_eq_one_left h
        rcases List.mem_cons.1 hc with rfl | hc'
        · exact (pow_eq_one_iff ha.ne').1 h1
        · exact ht.1 h2 c hc'
      · intro h
        have h1 : a = 1 := h a (List.mem_cons_self a t)
        have h2 : (t.map fun c => c ^ c).prod = 1 := ht.2 fun c hc => h c (List.mem_cons_of_mem _ hc)
        rw [h1, h2, one_pow, one_mul]
  rw [collisionWeight, base (counterValues s) fun c hc => counterValues_pos hc]
  constructor
  · intro h p hp
    exact h _ (List.mem_map.2 ⟨p, List.mem_dedup.2 hp, rfl⟩)
  · intro h c hc
    rcases List.mem_map.1 hc with ⟨p, hp, rfl⟩
    exact h p (List.mem_dedup.1 hp)

theorem counterValues_sum_pos (s : List (List ℕ)) (h : appearanceEvents s ≠ []) :
    0 < (counterValues s).sum := by
  rcases List.exists_mem_of_ne_nil _ h with ⟨p, hp⟩
  have hmem : (appearanceEvents s).count p ∈ counterValues s :=
    List.mem_map.2 ⟨p, List.mem_dedup.2 hp, rfl⟩
  have hle := List.single_le_sum (l := counterValues s) (fun x _ => Nat.zero_le x) _ hmem
  have := List.count_pos_iff.2 hp
  omega

theorem badness_nonneg (s : List (List ℕ)) (h : appearanceEvents s ≠ []) :
    0 ≤ _badness s := by
  rw [badness_eq_log_collisionWeight s (counterValues_sum_pos s h)]
  have h1 : (1 : ℝ) ≤ (collisionWeight s : ℝ) := by exact_mod_cast collisionWeight_pos s
  have h2 : (0 : ℝ) ≤ ((counterValues s).sum : ℝ) := by positivity
  exact div_nonneg (Real.log_nonneg h1) h2

theorem badness_eq_zero_iff (s : List (List ℕ)) (h : appearanceEvents s ≠ []) :
    (_badness s = 0 ↔ collisionWeight s = 1) := by
  have hsum := counterValues_sum_pos s h
  rw [badness_eq_log_collisionWeight s hsum]
  have hN : ((counterValues s).sum : ℝ) ≠ 0 := by positivity
  rw [div_eq_zero_iff]
  constructor
  · rintro (hlog | hbad)
    · rcases Real.log_eq_zero.1 hlog with h0 | h1 | hneg
      · exact absurd h0 (by exact_mod_cast (collisionWeight_pos s).ne')
      · exact_mod_cast h1
      · have : (0 : ℝ) < (collisionWeight s : ℝ) := by exact_mod_cast collisionWeight_pos s
        linarith
    · exact absurd hbad hN
  · intro h1
    rw [h1]
    simp

/-- Faithfulness of the executable loop guard: over the idealised reals, the
source's `score < 1e-6` test is equivalent to `collisionWeight = 1` for any
schedule with at most 693147 appearance events (if any `(team, zone)` pair
repeats, the badness is at least `log 2 / N > 10⁻⁶`). -/
theorem badness_lt_epsilon_iff (s : List (List ℕ)) (h : appearanceEvents s ≠ [])
    (hbound : (counterValues s).sum ≤ 693147) :
    (_badness s < 1 / 1000000 ↔ collisionWeight s = 1) := by
  have hsum := counterValues_sum_pos s h
  have hN : (0 : ℝ) < ((counterValues s).sum : ℝ) := by exact_mod_cast hsum
  constructor
  · intro hlt
    by_contra hne
    have h2 : 2 ≤ collisionWeight s := by
      have := collisionWeight_pos s
      omega
    have hlog2 : Real.log 2 ≤ Real.log (collisionWeight s) := by
      apply Real.log_le_log (by norm_num)
      exact_mod_cast h2
    have hb : Real.log 2 / 693147 ≤ _badness s := by
      rw [badness_eq_log_collisionWeight s hsum]
      have hb' : ((counterValues s).sum : ℝ) ≤ 693147 := by exact_mod_cast hbound
      have hlogpos : 0 < Real.log 2 := Real.log_pos (by norm_num)
      calc Real.log 2 / 693147 ≤ Real.log 2 / ((counterValues s).sum : ℝ) :=
            div_le_div_of_nonneg_left (le_of_lt hlogpos) hN hb'
        _ ≤ Real.log (collisionWeight s) / ((counterValues s).sum : ℝ) :=
            (div_le_div_iff_of_pos_right hN).2 hlog2
    have hgt : (1 : ℝ) / 1000000 < Real.log 2 / 693147 := by
      have := Real.log_two_gt_d9
      rw [div_lt_div_iff₀ (by norm_num) (by norm_num)]
      nlinarith
    linarith
  · intro h1
    have : _badness s = 0 := (badness_eq_zero_iff s h).2 h1
    rw [this]
    norm_num

/-- Comparing badness of two schedules with the same number of appearance
events (as is always the case inside `permute_zones`, which only permutes
matches) is comparing their collision weights. -/
theorem badness_lt_iff_collisionWeight_lt (s1 s2 : List (List ℕ))
    (hsum : (counterValues s1).sum = (counterValues s2).sum)
    (h1 : appearanceEvents s1 ≠ []) :
    (_badness s1 < _badness s2 ↔ collisionWeight s1 < collisionWeight s2) := by
  have hp1 := counterValues_sum_pos s1 h1
  have hN : (0 : ℝ) < ((counterValues s1).sum : ℝ) := by exact_mod_cast hp1
  rw [badness_eq_log_collisionWeight s1 hp1, badness_eq_log_collisionWeight s2 (hsum ▸ hp1),
    ← hsum, div_lt_div_iff_of_pos_right hN,
    Real.log_lt_log_iff (by exact_mod_cast collisionWeight_pos s1)]
  exact Nat.cast_lt
  exact_mod_cast collisionWeight_pos s2

/-- The inner `min(itertools.permutations(match), key=...)` of `permute_zones`:
the earliest permutation of `mtch` minimising the badness of the schedule with
match `ix` replaced (`itertools.chain(schedule[:ix], (perm,), schedule[ix+1:])`
is `s.set ix perm` for `ix < s.length`).  Badness comparison is performed via
`collisionWeight` (see `badness_lt_iff_collisionWeight_lt`). -/
def bestPermutation (s : List (List ℕ)) (ix : ℕ) (mtch : List ℕ) : List ℕ :=
  match permutationsPy mtch with
  | [] => mtch
  | p :: rest => minBy (fun perm => collisionWeight (s.set ix perm)) p rest

/-- The `for ix, match in enumerate(schedule)` descent loop of one
`permute_zones` iteration, updating the schedule in place and recording
whether any match changed.  `f` counts the remaining indices. -/
def descentFrom : List (List ℕ) → ℕ → Bool → ℕ → List (List ℕ) × Bool
  | s, _, changed, 0 => (s, changed)
  | s, ix, changed, f + 1 =>
    let mtch := s.getD ix []
    let best := bestPermutation s ix mtch
    if mtch ≠ best then descentFrom (s.set ix best) (ix + 1) true f
    else descentFrom s (ix + 1) changed f

def descentPass (s : List (List ℕ)) : List (List ℕ) × Bool :=
  descentFrom s 0 false s.length

/-- Model of the random number generator: for iteration `n` and match index
`i`, the boolean outcome of `random.random() < temperature` and a selector for
the permutation `random.shuffle` produces.  (At `n = 0` the temperature is `1`
and the real comparison is always true; counterexample oracles below only use
annealing outcomes at `n ≥ 1`, where both outcomes have positive
probability.) -/
def RandomOracle : Type := ℕ → ℕ → Bool × ℕ

/-- Outcome of `random.shuffle(match)`: some permutation of the match. -/
def shufflePerm (mtch : List ℕ) (k : ℕ) : List ℕ :=
  (permutationsPy mtch).getD (k % (permutationsPy mtch).length) mtch

/-- The annealing step (`for match in schedule: if random.random() <
temperature: random.shuffle(match)`). -/
def annealFrom (o : RandomOracle) (n : ℕ) : ℕ → List (List ℕ) → List (List ℕ)
  | _, [] => []
  | i, m :: rest =>
    (if (o n i).1 then shufflePerm m (o n i).2 else m) :: annealFrom o n (i + 1) rest

/-- One iteration body of `permute_zones` after the badness test: descent
pass, then annealing if no match changed. -/
def pzStep (o : RandomOracle) (n : ℕ) (s : List (List ℕ)) : List (List ℕ) :=
  let pr := descentPass s
  if pr.2 then pr.1 else annealFrom o n 0 pr.1

/-- The `for n in tqdm.trange(num_iterations)` loop of `permute_zones`.
`none` models the `ValueError` that `math.log(0)` raises when the schedule
has no appearance events; the `collisionWeight s = 1` test models
`score < 1e-6` (see `badness_lt_epsilon_iff`). -/
def pzLoop (o : RandomOracle) : ℕ → ℕ → List (List ℕ) → Option (List (List ℕ))
  | 0, _, s => some s
  | f + 1, n, s =>
    if appearanceEvents s = [] then none
    else if collisionWeight s = 1 then some s
    else pzLoop o f (n + 1) (pzStep o n s)

def num_iterations : ℕ := 1000

/-- `permute_zones(schedule)` (the initial `map` is the hard copy
`[list(x) for x in schedule]`). -/
def permute_zones (o : RandomOracle) (schedule : List (List ℕ)) : Option (List (List ℕ)) :=
  pzLoop o num_iterations 0 (schedule.map fun x => x)

/-- The sequence of schedule states observed at the top of each
`permute_zones` iteration (where `score` is computed), ending with the state
the run stops in.  Specification-level instrument used to express "the
best-scoring schedule observed during the run". -/
def pzTrace (o : RandomOracle) : ℕ → ℕ → List (List ℕ) → List (List (List ℕ))
  | 0, _, s => [s]
  | f + 1, n, s =>
    if appearanceEvents s = [] then [s]
    else if collisionWeight s = 1 then [s]
    else s :: pzTrace o f (n + 1) (pzStep o n s)

/-- Oracle under which no annealing shuffle ever fires. -/
def oracleNone : RandomOracle := fun _ _ => (false, 0)

/-- Oracle that fires a single annealing shuffle, on match 0 of the last
iteration (`n = 999`, where `temperature ≈ 10⁻⁶ > 0`), choosing the second
permutation of the match. -/
def oracleLastShuffle : RandomOracle := fun n i =>
  if n = 999 ∧ i = 0 then (true, 1) else (false, 0)

theorem forall₂_perm_refl (s : List (List ℕ)) : List.Forall₂ List.Perm s s :=
  List.forall₂_same.2 fun _ _ => List.Perm.refl _

theorem forall₂_perm_trans {a b c : List (List ℕ)} (h1 : List.Forall₂ List.Perm a b)
    (h2 : List.Forall₂ List.Perm b c) : List.Forall₂ List.Perm a c := by
  induction h1 generalizing c with
  | nil => cases h2; exact List.Forall₂.nil
  | cons hab _ ih =>
    cases h2 with
    | cons hbc h2' => exact List.Forall₂.cons (hab.trans hbc) (ih h2')

theorem bestPermutation_perm (s : List (List ℕ)) (ix : ℕ) (mtch : List ℕ) :
    (bestPermutation s ix mtch).Perm mtch := by
  unfold bestPermutation
  cases hp : permutationsPy mtch with
  | nil => exact List.Perm.refl _
  | cons p rest =>
    have hmem : minBy (fun perm => collisionWeight (s.set ix perm)) p rest ∈ permutationsPy mtch := by
      rw [hp]
      rcases minBy_mem (fun perm => collisionWeight (s.set ix perm)) p rest with h | h
      · rw [h]; exact List.mem_cons_self _ _
      · exact List.mem_cons_of_mem _ h
    exact mem_permutationsPy hmem

theorem forall₂_perm_set (s : List (List ℕ)) (ix : ℕ) (b : List ℕ)
    (hb : b.Perm (s.getD ix [])) : List.Forall₂ List.Perm s (s.set ix b) := by
  induction s generalizing ix with
  | nil => exact List.Forall₂.nil
  | cons m t ih =>
    cases ix with
    | zero => exact List.Forall₂.cons hb.symm (forall₂_perm_refl t)
    | succ k => exact List.Forall₂.cons (List.Perm.refl m) (ih k hb)

theorem descentFrom_forall₂ (f : ℕ) : ∀ (s : List (List ℕ)) (ix : ℕ) (ch : Bool),
    List.Forall₂ List.Perm s (descentFrom s ix ch f).1 := by
  induction f with
  | zero => intro s ix ch; exact forall₂_perm_refl s
  | succ k ih =>
    intro s ix ch
    have heq : descentFrom s ix ch (k + 1)
        = if s.getD ix [] ≠ bestPermutation s ix (s.getD ix [])
          then descentFrom (s.set ix (bestPermutation s ix (s.getD ix []))) (ix + 1) true k
          else descentFrom s (ix + 1) ch k := rfl
    rw [heq]
    by_cases h : s.getD ix [] ≠ bestPermutation s ix (s.getD ix [])
    · rw [if_pos h]
      refine forall₂_perm_trans ?_ (ih _ _ _)
      exact forall₂_perm_set s ix _ (bestPermutation_perm s ix _)
    · rw [if_neg h]
      exact ih _ _ _

theorem shufflePerm_perm (mtch : List ℕ) (k : ℕ) : (shufflePerm mtch k).Perm mtch := by
  unfold shufflePerm
  by_cases h : k % (permutationsPy mtch).length < (permutationsPy mtch).length
  · rw [List.getD_eq_getElem _ _ h]
    exact mem_permutationsPy (List.getElem_mem h)
  · rw [List.getD_eq_default _ _ (le_of_not_lt h)]

theorem annealFrom_forall₂ (o : RandomOracle) (n : ℕ) : ∀ (i : ℕ) (s : List (List ℕ)),
    List.Forall₂ List.Perm s (annealFrom o n i s) := by
  intro i s
  induction s generalizing i with
  | nil => exact List.Forall₂.nil
  | cons m t ih =>
    refine List.Forall₂.cons ?_ (ih (i + 1))
    by_cases h : (o n i).1
    · simp only [h, if_true]
      exact (shufflePerm_perm m _).symm
    · simp only [h, if_false]
      exact List.Perm.refl m

theorem pzStep_forall₂ (o : RandomOracle) (n : ℕ) (s : List (List ℕ)) :
    List.Forall₂ List.Perm s (pzStep o n s) := by
  unfold pzStep
  by_cases h : (descentPass s).2
  · simp only [h, if_true]
    exact descentFrom_forall₂ _ s 0 false
  · simp only [h, if_false]
    exact forall₂_perm_trans (descentFrom_forall₂ _ s 0 false) (annealFrom_forall₂ o n 0 _)

theorem pzLoop_forall₂ (o : RandomOracle) (f : ℕ) : ∀ (n : ℕ) (s out : List (List ℕ)),
    pzLoop o f n s = some out → List.Forall₂ List.Perm s out := by
  induction f with
  | zero =>
    intro n s out h
    simp only [pzLoop, Option.some.injEq] at h
    rw [← h]
    exact forall₂_perm_refl s
  | succ k ih =>
    intro n s out h
    simp only [pzLoop] at h
    by_cases h1 : appearanceEvents s = []
    · simp [h1] at h
    · by_cases h2 : collisionWeight s = 1
      · simp only [h1, if_false, h2, if_true, Option.some.injEq] at h
        rw [← h]
        exact forall₂_perm_refl s
      · simp only [h1, if_false, h2, if_true] at h
        exact forall₂_perm_trans (pzStep_forall₂ o n s) (ih _ _ _ h)

theorem pzLoop_succ (o : RandomOracle) (f n : ℕ) (s : List (List ℕ))
    (hev : appearanceEvents s ≠ []) (hw : collisionWeight s ≠ 1) :
    pzLoop o (f + 1) n s = pzLoop o f (n + 1) (pzStep o n s) := by
  simp [pzLoop, hev, hw]

theorem pzTrace_succ (o : RandomOracle) (f n : ℕ) (s : List (List ℕ))
    (hev : appearanceEvents s ≠ []) (hw : collisionWeight s ≠ 1) :
    pzTrace o (f + 1) n s = s :: pzTrace o f (n + 1) (pzStep o n s) := by
  simp [pzTrace, hev, hw]

theorem annealFrom_id (o : RandomOracle) (n : ℕ) (h : ∀ i, (o n i).1 = false) :
    ∀ (i : ℕ) (s : List (List ℕ)), annealFrom o n i s = s := by
  intro i s
  induction s generalizing i with
  | nil => rfl
  | cons m t ih => simp [annealFrom, h i, ih (i + 1)]

theorem pzLoop_stuck (o : RandomOracle) (s : List (List ℕ)) (g : ℕ)
    (hev : appearanceEvents s ≠ []) (hw : collisionWeight s ≠ 1) :
    ∀ (f n : ℕ), (∀ k, n ≤ k → k < n + f → pzStep o k s = s) →
    pzLoop o (f + g) n s = pzLoop o g (n + f) s := by
  intro f
  induction f with
  | zero => intro n _; simp
  | succ k ih =>
    intro n hstep
    have h1 : k + 1 + g = (k + g) + 1 := by omega
    rw [h1, pzLoop_succ o (k + g) n s hev hw, hstep n (le_refl n) (by omega),
      ih (n + 1) fun j hj1 hj2 => hstep j (by omega) (by omega)]
    congr 1
    omega

theorem pzTrace_stuck (o : RandomOracle) (s : List (List ℕ)) (g : ℕ)
    (hev : appearanceEvents s ≠ []) (hw : collisionWeight s ≠ 1) :
    ∀ (f n : ℕ), (∀ k, n ≤ k → k < n + f → pzStep o k s = s) →
    pzTrace o (f + g) n s = List.replicate f s ++ pzTrace o g (n + f) s := by
  intro f
  induction f with
  | zero => intro n _; simp
  | succ k ih =>
    intro n hstep
    have h1 : k + 1 + g = (k + g) + 1 := by omega
    rw [h1, pzTrace_succ o (k + g) n s hev hw, hstep n (le_refl n) (by omega),
      ih (n + 1) fun j hj1 hj2 => hstep j (by omega) (by omega)]
    have h2 : n + 1 + k = n + (k + 1) := by omega
    rw [h2, List.replicate_succ]
    rfl

theorem pzTrace_ne_nil (o : RandomOracle) (f n : ℕ) (s : List (List ℕ)) :
    pzTrace o f n s ≠ [] := by
  cases f with
  | zero => simp [pzTrace]
  | succ k =>
    by_cases h1 : appearanceEvents s = []
    · simp [pzTrace, h1]
    · by_cases h2 : collisionWeight s = 1
      · simp [pzTrace, h1, h2]
      · simp [pzTrace, h1, h2]

theorem pzLoop_eq_getLast (o : RandomOracle) :
    ∀ (f n : ℕ) (s out : List (List ℕ)), pzLoop o f n s = some out →
    (pzTrace o f n s).getLast? = some out := by
  intro f
  induction f with
  | zero =>
    intro n s out h
    simp only [pzLoop, Option.some.injEq] at h
    simp [pzTrace, h]
  | succ k ih =>
    intro n s out h
    by_cases h1 : appearanceEvents s = []
    · simp [pzLoop, h1] at h
    · by_cases h2 : collisionWeight s = 1
      · simp only [pzLoop, h1, if_false, h2, if_true, Option.some.injEq] at h
        subst h
        simp [pzTrace, h1, h2]
      · rw [pzLoop_succ o k n s h1 h2] at h
        rw [pzTrace_succ o k n s h1 h2]
        rcases hne : pzTrace o k (n + 1) (pzStep o n s) with _ | ⟨b, l'⟩
        · exact absurd hne (pzTrace_ne_nil o k (n + 1) _)
        · have := ih (n + 1) (pzStep o n s) out h
          rw [hne] at this
          exact this

/-- "All (team, zone) pairs that occur in the schedule have equal appearance
counts" (the balance condition of claims C2 and C3). -/
def allCountsEqual (s : List (List ℕ)) : Prop :=
  ∀ c1 ∈ counterValues s, ∀ c2 ∈ counterValues s, c1 = c2

instance (s : List (List ℕ)) : Decidable (allCountsEqual s) := by
  unfold allCountsEqual
  infer_instance

/-- C2 (counterexample): in the schedule `[[0,1],[0,1]]` every occurring
(team, zone) pair has the same appearance count (2), yet `_badness` is not
zero: the code subtracts the entropy from `log(total event count)` rather
than from the maximum achievable entropy `log(number of distinct pairs)`,
so a uniform distribution with counts above 1 still scores positive. -/
theorem badness_nonzero_on_uniform_pairs :
    allCountsEqual [[0, 1], [0, 1]] ∧ _badness [[0, 1], [0, 1]] ≠ 0 := by
  constructor
  · decide
  · rw [Ne, badness_eq_zero_iff [[0, 1], [0, 1]] (by decide)]
    decide

/-- C2 (amended): the `_badness` dispersion score is nonnegative, and it is
zero exactly when every (team, zone) pair that occurs in the schedule occurs
exactly once (so it is strictly positive whenever any pair repeats, even if
all occurring pairs have equal counts). -/
theorem badness_zero_iff_each_pair_once (s : List (List ℕ))
    (h : appearanceEvents s ≠ []) :
    0 ≤ _badness s ∧
      (_badness s = 0 ↔ ∀ p ∈ appearanceEvents s, (appearanceEvents s).count p = 1) :=
  ⟨badness_nonneg s h, (badness_eq_zero_iff s h).trans (collisionWeight_eq_one_iff s)⟩

theorem badness_zero_iff_each_pair_once_witness :
    0 ≤ _badness [[0, 1]] ∧
      (_badness [[0, 1]] = 0 ↔
        ∀ p ∈ appearanceEvents [[0, 1]], (appearanceEvents [[0, 1]]).count p = 1) :=
  badness_zero_iff_each_pair_once [[0, 1]] (by decide)

/-- C3 (counterexample): `[[0,1],[0,1]]` is perfectly balanced in the claim's
sense (every occurring (team, zone) pair appears exactly twice), yet
`permute_zones` does not return it unchanged: its badness is `log 2 ≠ 0`, so
the descent loop runs and flips match 0.  (The run is deterministic: the
annealing randomness is never consulted.) -/
theorem permute_zones_alters_balanced_schedule :
    allCountsEqual [[0, 1], [0, 1]]
      ∧ permute_zones oracleNone [[0, 1], [0, 1]] = some [[1, 0], [0, 1]]
      ∧ [[1, 0], [0, 1]] ≠ [[0, 1], [0, 1]] :=
  ⟨by decide, by decide, by decide⟩

/-- C3 (amended): `permute_zones` returns a schedule with badness zero
unchanged (for any randomness).  By C2 (amended), badness zero means every
occurring (team, zone) pair occurs exactly once — a strictly stronger
condition than "all occurring pairs have equal counts". -/
theorem permute_zones_fixes_badness_zero (o : RandomOracle) (s : List (List ℕ))
    (hev : appearanceEvents s ≠ []) (hz : _badness s = 0) :
    permute_zones o s = some s := by
  have hw : collisionWeight s = 1 := (badness_eq_zero_iff s hev).1 hz
  unfold permute_zones
  rw [List.map_id' s, show num_iterations = 999 + 1 from rfl]
  simp [pzLoop, hev, hw]

theorem permute_zones_fixes_badness_zero_witness :
    permute_zones oracleNone [[0, 1]] = some [[0, 1]] :=
  permute_zones_fixes_badness_zero oracleNone [[0, 1]] (by decide)
    ((badness_eq_zero_iff [[0, 1]] (by decide)).2 (by decide))

/-- C5: whenever `permute_zones` returns a schedule, it has the same number
of matches in the same order, and each output match is a permutation of the
corresponding input match (for any randomness). -/
theorem permute_zones_preserves_match_multisets (o : RandomOracle)
    (s out : List (List ℕ)) (h : permute_zones o s = some out) :
    List.Forall₂ List.Perm s out := by
  unfold permute_zones at h
  rw [List.map_id' s] at h
  exact pzLoop_forall₂ o num_iterations 0 s out h

theorem permute_zones_preserves_match_multisets_witness :
    List.Forall₂ List.Perm [[0, 1], [0, 1]] [[1, 0], [0, 1]] :=
  permute_zones_preserves_match_multisets oracleNone [[0, 1], [0, 1]] [[1, 0], [0, 1]]
    (by decide)

/-- C7 (amended): when the loop ends — whether by exhausting the
`num_iterations` budget or by the badness test — `permute_zones` returns the
final state of the run, i.e. the last schedule observed, not the
best-scoring one (the source keeps no record of the best schedule seen). -/
theorem permute_zones_returns_last_observed (o : RandomOracle)
    (s out : List (List ℕ)) (h : permute_zones o s = some out) :
    (pzTrace o num_iterations 0 s).getLast? = some out := by
  unfold permute_zones at h
  rw [List.map_id' s] at h
  exact pzLoop_eq_getLast o num_iterations 0 s out h

theorem permute_zones_returns_last_observed_witness :
    (pzTrace oracleNone num_iterations 0 [[0, 1], [0, 1]]).getLast? = some [[1, 0], [0, 1]] :=
  permute_zones_returns_last_observed oracleNone [[0, 1], [0, 1]] [[1, 0], [0, 1]] (by decide)

/-- C7 (counterexample): a complete budget-exhausting run (1001 observed
states, so all 1000 iterations ran without the badness ever reaching
(near-)zero) in which the returned schedule scores strictly worse than a
schedule observed during the run: the final annealing step (fired by the
oracle on the last iteration, where the temperature is still positive)
un-does the descent improvement and the loop then ends, returning the
perturbed schedule. -/
theorem permute_zones_final_not_best_observed :
    permute_zones oracleLastShuffle [[0, 1], [0, 1], [0, 1]] = some [[0, 1], [0, 1], [0, 1]]
      ∧ (pzTrace oracleLastShuffle num_iterations 0 [[0, 1], [0, 1], [0, 1]]).length = 1001
      ∧ [[1, 0], [0, 1], [0, 1]] ∈ pzTrace oracleLastShuffle num_iterations 0 [[0, 1], [0, 1], [0, 1]]
      ∧ _badness [[1, 0], [0, 1], [0, 1]] < _badness [[0, 1], [0, 1], [0, 1]] := by
  have hev0 : appearanceEvents [[0, 1], [0, 1], [0, 1]] ≠ [] := by decide
  have hw0 : collisionWeight [[0, 1], [0, 1], [0, 1]] ≠ 1 := by decide
  have hev1 : appearanceEvents [[1, 0], [0, 1], [0, 1]] ≠ [] := by decide
  have hw1 : collisionWeight [[1, 0], [0, 1], [0, 1]] ≠ 1 := by decide
  have hstep0 : pzStep oracleLastShuffle 0 [[0, 1], [0, 1], [0, 1]] = [[1, 0], [0, 1], [0, 1]] := by
    decide
  have hstepLast :
      pzStep oracleLastShuffle 999 [[1, 0], [0, 1], [0, 1]] = [[0, 1], [0, 1], [0, 1]] := by
    decide
  have hstuck : ∀ k, 1 ≤ k → k < 1 + 998 →
      pzStep oracleLastShuffle k [[1, 0], [0, 1], [0, 1]] = [[1, 0], [0, 1], [0, 1]] := by
    intro k hk1 hk2
    have hd : descentPass [[1, 0], [0, 1], [0, 1]] = ([[1, 0], [0, 1], [0, 1]], false) := by
      decide
    have hfalse : ∀ i, (oracleLastShuffle k i).1 = false := by
      intro i
      have hnot : ¬(k = 999 ∧ i = 0) := by rintro ⟨rfl, _⟩; omega
      simp [oracleLastShuffle, hnot]
    simp [pzStep, hd, annealFrom_id oracleLastShuffle k hfalse]
  refine ⟨?_, ?_, ?_, ?_⟩
  · unfold permute_zones
    rw [List.map_id', show num_iterations = 999 + 1 from rfl,
      pzLoop_succ oracleLastShuffle 999 0 _ hev0 hw0, hstep0,
      show (999 : ℕ) = 998 + 1 from rfl,
      pzLoop_stuck oracleLastShuffle [[1, 0], [0, 1], [0, 1]] 1 hev1 hw1 998 1 hstuck,
      show (1 : ℕ) = 0 + 1 from rfl,
      pzLoop_succ oracleLastShuffle 0 (1 + 998) _ hev1 hw1]
    rw [show (1 + 998 : ℕ) = 999 from rfl, hstepLast]
    rfl
  · rw [show num_iterations = 999 + 1 from rfl,
      pzTrace_succ oracleLastShuffle 999 0 _ hev0 hw0, hstep0,
      show (999 : ℕ) = 998 + 1 from rfl,
      pzTrace_stuck oracleLastShuffle [[1, 0], [0, 1], [0, 1]] 1 hev1 hw1 998 1 hstuck,
      show (1 : ℕ) = 0 + 1 from rfl,
      pzTrace_succ oracleLastShuffle 0 (1 + 998) _ hev1 hw1,
      show (1 + 998 : ℕ) = 999 from rfl, hstepLast,
      show pzTrace oracleLastShuffle 0 (999 + 1) [[0, 1], [0, 1], [0, 1]]
        = [[[0, 1], [0, 1], [0, 1]]] from rfl]
    rw [List.length_cons, List.length_append, List.length_replicate]
    rfl
  · rw [show num_iterations = 999 + 1 from rfl,
      pzTrace_succ oracleLastShuffle 999 0 _ hev0 hw0, hstep0,
      show (999 : ℕ) = 998 + 1 from rfl,
      pzTrace_stuck oracleLastShuffle [[1, 0], [0, 1], [0, 1]] 1 hev1 hw1 998 1 hstuck,
      show (1 : ℕ) = 0 + 1 from rfl,
      pzTrace_succ oracleLastShuffle 0 (1 + 998) _ hev1 hw1]
    exact List.mem_cons_of_mem _ (List.mem_append_right _ (List.mem_cons_self _ _))
  · have hsum1 : 0 < (counterValues [[1, 0], [0, 1], [0, 1]]).sum := by decide
    have hsum0 : 0 < (counterValues [[0, 1], [0, 1], [0, 1]]).sum := by decide
    rw [badness_eq_log_collisionWeight _ hsum1, badness_eq_log_collisionWeight _ hsum0,
      show collisionWeight [[1, 0], [0, 1], [0, 1]] = 16 from by decide,
      show collisionWeight [[0, 1], [0, 1], [0, 1]] = 729 from by decide,
      show (counterValues [[1, 0], [0, 1], [0, 1]]).sum = 6 from by decide,
      show (counterValues [[0, 1], [0, 1], [0, 1]]).sum = 6 from by decide]
    have hlog : Real.log (16 : ℕ) < Real.log (729 : ℕ) := by
      apply Real.log_lt_log (by norm_num)
      norm_num
    apply div_lt_div_of_pos_right hlog
    norm_num

/-! ## `protoround.py`

`_build_proto_round` poses a constraint problem to Z3 over integer variables
`match_assignments[(m, z)]`, modelled here as a function `slot : ℕ → ℕ → ℤ`,
then reads a satisfying model back into a list of matches.  The predicate
`protoConstraints` is the exact conjunction of constraints added to the
solver; the extraction loop is `_build_proto_round`.  The surrounding
`build_proto_round` wrapper only adds a pickle cache keyed by the four
parameters (out of scope here: it returns previously extracted results). -/

def num_matches (num_teams appearances_per_round num_zones : ℕ) : ℕ :=
  (num_teams * appearances_per_round + (num_zones - 1)) / num_zones

/-- `num_appearances_in_window(team, window_start, window_end)`. -/
def numAppearancesInWindow (slot : ℕ → ℕ → ℤ) (num_zones : ℕ) (team : ℕ)
    (window_start window_end : ℕ) : ℕ :=
  ∑ m ∈ Finset.Ico window_start window_end, ∑ z ∈ Finset.range num_zones,
    if slot m z = (team : ℤ) then 1 else 0

/-- `times_faced` for a pair of teams in constraint group 5. -/
def timesFaced (slot : ℕ → ℕ → ℤ) (num_matches num_zones : ℕ) (lt rt : ℕ) : ℕ :=
  ∑ lz ∈ Finset.range (num_zones - 1), ∑ rz ∈ Finset.Ico (lz + 1) num_zones,
    ∑ m ∈ Finset.range num_matches,
      if slot m lz = (lt : ℤ) ∧ slot m rz = (rt : ℤ) then 1 else 0

/-- The five constraint groups `_build_proto_round` adds to the solver:
range, strictly-increasing order within a match, exact appearance counts,
sliding-window spacing (only when `spacing > 0` and
`appearances_per_round > 1`), and at-most-one facing per pair (only when
`appearances_per_round > 1`). -/
def protoConstraints (T A Z S : ℕ) (slot : ℕ → ℕ → ℤ) : Prop :=
  (∀ m < num_matches T A Z, ∀ z < Z, 0 ≤ slot m z ∧ slot m z < (T : ℤ))
  ∧ (∀ m < num_matches T A Z, ∀ z < Z - 1, slot m z < slot m (z + 1))
  ∧ (∀ t < T, numAppearancesInWindow slot Z t 0 (num_matches T A Z) = A)
  ∧ (0 < S → 1 < A → ∀ ws < num_matches T A Z - S,
      ∀ t < T, numAppearancesInWindow slot Z t ws (ws + S + 1) ≤ 1)
  ∧ (1 < A → ∀ lt < T, ∀ rt < T, lt < rt →
      timesFaced slot (num_matches T A Z) Z lt rt ≤ 1)

instance (T A Z S : ℕ) (slot : ℕ → ℕ → ℤ) : Decidable (protoConstraints T A Z S slot) := by
  unfold protoConstraints
  infer_instance

/-- The extraction loop of `_build_proto_round`, reading the model values
back (`.as_long()`) into the list of matches. -/
def _build_proto_round (T A Z : ℕ) (slot : ℕ → ℕ → ℤ) : List (List ℕ) :=
  (List.range (num_matches T A Z)).map fun m => (List.range Z).map fun z => (slot m z).toNat

theorem countP_range (p : ℕ → Bool) (n : ℕ) :
    (List.range n).countP p = ∑ i ∈ Finset.range n, if p i then 1 else 0 := by
  induction n with
  | zero => rfl
  | succ k ih =>
    rw [List.range_succ, List.countP_append, Finset.sum_range_succ, ih]
    simp [List.countP_cons]

theorem proto_count_eq (M Z t : ℕ) (slot : ℕ → ℕ → ℤ)
    (hpos : ∀ m < M, ∀ z < Z, 0 ≤ slot m z) :
    ((List.range M).map fun m => (List.range Z).map fun z => (slot m z).toNat).flatten.count t
      = numAppearancesInWindow slot Z t 0 M := by
  rw [List.count_flatten, List.map_map]
  unfold numAppearancesInWindow
  rw [← Finset.range_eq_Ico]
  have hrow : ∀ m < M, (((List.range Z).map fun z => (slot m z).toNat).count t)
      = ∑ z ∈ Finset.range Z, if slot m z = (t : ℤ) then 1 else 0 := by
    intro m hm
    rw [List.count_eq_countP, List.countP_map, countP_range]
    refine Finset.sum_congr rfl fun z hz => ?_
    have h0 := (hpos m hm z (Finset.mem_range.1 hz))
    by_cases h : slot m z = (t : ℤ)
    · simp only [h, if_true, Function.comp]
      rw [if_pos]
      simp only [beq_iff_eq]
      omega
    · simp only [h, if_false, Function.comp]
      rw [if_neg]
      simp only [beq_iff_eq]
      omega
  have hmap : (List.range M).map
        ((fun l => List.count t l) ∘ fun m => (List.range Z).map fun z => (slot m z).toNat)
      = (List.range M).map fun m => ∑ z ∈ Finset.range Z, if slot m z = (t : ℤ) then 1 else 0 := by
    apply List.map_congr_left
    intro m hm
    exact hrow m (List.mem_range.1 hm)
  rw [hmap]
  rfl

/-- C9: for any satisfying assignment, the proto-round extracted by
`_build_proto_round(T, A, Z, S)` has exactly `⌈T·A/Z⌉ = (T·A + (Z-1)) / Z`
matches, each of length `Z` with strictly increasing pseudo-team ids, and
each pseudo-team `t < T` appears exactly `A` times overall. -/
theorem proto_round_shape (T A Z S : ℕ) (slot : ℕ → ℕ → ℤ)
    (hsat : protoConstraints T A Z S slot) :
    (_build_proto_round T A Z slot).length = (T * A + (Z - 1)) / Z
      ∧ (∀ mtch ∈ _build_proto_round T A Z slot,
          mtch.length = Z ∧ mtch.Pairwise (· < ·))
      ∧ (∀ t < T, (_build_proto_round T A Z slot).flatten.count t = A) := by
  obtain ⟨hrange, horder, hcount, -, -⟩ := hsat
  refine ⟨by simp [_build_proto_round, num_matches], ?_, ?_⟩
  · intro mtch hmem
    rcases List.mem_map.1 hmem with ⟨m, hm, rfl⟩
    have hmM : m < num_matches T A Z := List.mem_range.1 hm
    refine ⟨by simp, ?_⟩
    have hchain : List.Chain' (· < ·) ((List.range Z).map fun z => (slot m z).toNat) := by
      rw [List.chain'_iff_get]
      intro i hi
      simp only [List.length_map, List.length_range] at hi
      have hiZ : i < Z := by omega
      have hi1Z : i + 1 < Z := by omega
      have hlt := horder m hmM i (by omega)
      have h0 := (hrange m hmM i hiZ).1
      simp only [List.get_eq_getElem, List.getElem_map, List.getElem_range]
      omega
    exact List.chain'_iff_pairwise.mp hchain
  · intro t ht
    unfold _build_proto_round
    rw [proto_count_eq _ _ _ _ fun m hm z hz => (hrange m hm z hz).1]
    exact hcount t ht

/-- A concrete satisfying assignment for `(T, A, Z, S) = (4, 1, 2, 1)`,
extracting to the proto-round `[[0,1],[2,3]]`. -/
def slotA : ℕ → ℕ → ℤ := fun m z => (([[0, 1], [2, 3]] : List (List ℤ)).getD m []).getD z 37

theorem proto_round_shape_witness :
    (_build_proto_round 4 1 2 slotA).length = (4 * 1 + (2 - 1)) / 2
      ∧ (∀ mtch ∈ _build_proto_round 4 1 2 slotA,
          mtch.length = 2 ∧ mtch.Pairwise (· < ·))
      ∧ (∀ t < 4, (_build_proto_round 4 1 2 slotA).flatten.count t = 1) :=
  proto_round_shape 4 1 2 1 slotA (by decide)

/-- A concrete satisfying assignment for `(T, A, Z, S) = (4, 2, 2, 10)`
(spacing far larger than the number of matches), extracting to
`[[0,1],[2,3],[0,2],[1,3]]`. -/
def slotB : ℕ → ℕ → ℤ :=
  fun m z => (([[0, 1], [2, 3], [0, 2], [1, 3]] : List (List ℤ)).getD m []).getD z 37

/-- C8 (counterexample): the generator performs no parameter validation.
With `spacing = 10` and only `num_matches = 4` available matches (an invalid
combination in the claim's sense), `_build_proto_round` does not reject:
the sliding-window loop `range(num_matches - spacing)` is empty, the solver
is still invoked, finds a satisfying assignment, and a proto-round is
returned — one in which team 0 plays matches 0 and 2, two apart, violating
the requested spacing. -/
theorem build_proto_round_accepts_invalid_params :
    num_matches 4 2 2 ≤ 10
      ∧ protoConstraints 4 2 2 10 slotB
      ∧ _build_proto_round 4 2 2 slotB = [[0, 1], [2, 3], [0, 2], [1, 3]]
      ∧ 0 ∈ ([[0, 1], [2, 3], [0, 2], [1, 3]] : List (List ℕ)).getD 0 []
      ∧ 0 ∈ ([[0, 1], [2, 3], [0, 2], [1, 3]] : List (List ℕ)).getD 2 [] := by
  refine ⟨by decide, by decide, by decide, by decide, by decide⟩

/-- C8 (amended): no parameter validation happens anywhere in
`_build_proto_round`; in particular, when `spacing ≥ num_matches` the
spacing constraint group is vacuously empty and the problem posed to the
solver is exactly the one for `spacing = 0`, so such calls are not rejected
but silently solved without any spacing requirement. -/
theorem spacing_vacuous_when_spacing_ge_matches (T A Z S : ℕ) (slot : ℕ → ℕ → ℤ)
    (hS : num_matches T A Z ≤ S) :
    protoConstraints T A Z S slot ↔ protoConstraints T A Z 0 slot := by
  unfold protoConstraints
  constructor
  · rintro ⟨h1, h2, h3, -, h5⟩
    exact ⟨h1, h2, h3, fun h0 => absurd h0 (lt_irrefl 0), h5⟩
  · rintro ⟨h1, h2, h3, -, h5⟩
    refine ⟨h1, h2, h3, ?_, h5⟩
    intro _ _ ws hws
    omega

theorem spacing_vacuous_when_spacing_ge_matches_witness :
    protoConstraints 4 2 2 10 slotB ↔ protoConstraints 4 2 2 0 slotB :=
  spacing_vacuous_when_spacing_ge_matches 4 2 2 10 slotB (by decide)

/-! ## `coalesce.py`

`coalesce` poses a constraint problem to Z3 over integer variables
`team_to_pseudo_team[(team_num, round_num)]`, modelled as
`σ : ℕ → ℕ → ℤ` (real team, round number ↦ pseudo team), then reads a
satisfying model back, inverting it per round via the
`pseudo_team_to_team` dict and applying it to every proto-round match.
A `KeyError` in that dict lookup is modelled by `Option`. -/

/-- `teams = sorted({y for x in proto_round for y in x})`. -/
def teamsOf (proto : List (List ℕ)) : List ℕ :=
  List.insertionSort (· ≤ ·) proto.flatten.dedup

/-- `min(teams)` (head of the ascending-sorted team list). -/
def min_team (proto : List (List ℕ)) : ℕ := (teamsOf proto).headD 0

/-- `max(teams)` (last of the ascending-sorted team list). -/
def max_team (proto : List (List ℕ)) : ℕ := (teamsOf proto).getLastD 0

/-- `len(proto_round[0])`: the zone count used for constraint group 5. -/
def zoneCount (proto : List (List ℕ)) : ℕ := (proto.headD []).length

/-- `forbid_team_overlap = max(len(proto_round[0]) - 1, 2)`. -/
def overlapK (proto : List (List ℕ)) : ℕ := max (zoneCount proto - 1) 2

/-- `itertools.permutations(l, k)`: all `k`-long orderings of distinct
elements of `l` (enumerated as: all permutations of all `k`-sublists). -/
def kperms (k : ℕ) (l : List α) : List (List α) :=
  (l.sublistsLen k).flatMap permutationsPy

/-- `proto_round[-spacing_number - 1:]` flattened to its teams. -/
def endWindowTeams (proto : List (List ℕ)) (sn : ℕ) : List ℕ :=
  (proto.drop (proto.length - (sn + 1))).flatten

/-- `proto_round[:spacing - spacing_number]` flattened to its teams. -/
def startWindowTeams (proto : List (List ℕ)) (S sn : ℕ) : List ℕ :=
  (proto.take (S - sn)).flatten

/-- Constraint group 1: `min_team ≤ allocation ≤ max_team`. -/
def ccRange (proto : List (List ℕ)) (R : ℕ) (σ : ℕ → ℕ → ℤ) : Prop :=
  ∀ t ∈ teamsOf proto, ∀ r < R,
    (min_team proto : ℤ) ≤ σ t r ∧ σ t r ≤ (max_team proto : ℤ)

/-- Constraint group 2: within a round all teams get distinct pseudo ids. -/
def ccRoundDistinct (proto : List (List ℕ)) (R : ℕ) (σ : ℕ → ℕ → ℤ) : Prop :=
  ∀ r < R, ∀ t1 ∈ teamsOf proto, ∀ t2 ∈ teamsOf proto, t1 ≠ t2 → σ t1 r ≠ σ t2 r

/-- Constraint group 3: each team gets distinct pseudo ids across rounds. -/
def ccCrossDistinct (proto : List (List ℕ)) (R : ℕ) (σ : ℕ → ℕ → ℤ) : Prop :=
  ∀ t ∈ teamsOf proto, ∀ r1 < R, ∀ r2 < R, r1 ≠ r2 → σ t r1 ≠ σ t r2

/-- Constraint group 4: boundary spacing between consecutive rounds — no
team may hold a pseudo id from the last `sn+1` proto matches in one round
and a pseudo id from the first `S - sn` proto matches in the next. -/
def ccSpacing (proto : List (List ℕ)) (R S : ℕ) (σ : ℕ → ℕ → ℤ) : Prop :=
  ∀ sn < S, ∀ er < R - 1,
    ∀ ep ∈ endWindowTeams proto sn, ∀ sp ∈ startWindowTeams proto S sn,
    ∀ t ∈ teamsOf proto, ¬(σ t er = (ep : ℤ) ∧ σ t (er + 1) = (sp : ℤ))

/-- Constraint group 5: match overlap — no `overlapK` distinct real teams
may be assigned (in any zones) into one proto match in an earlier round and
also (in any zones) into one proto match in a later round. -/
def ccOverlap (proto : List (List ℕ)) (R : ℕ) (σ : ℕ → ℕ → ℤ) : Prop :=
  ∀ er < R, ∀ lr < R, er < lr → ∀ mA ∈ proto, ∀ mB ∈ proto,
    ∀ mix ∈ List.sublistsLen (overlapK proto) (teamsOf proto),
    ∀ ez ∈ kperms (overlapK proto) (List.range (zoneCount proto)),
    ∀ lz ∈ kperms (overlapK proto) (List.range (zoneCount proto)),
    (∀ pr ∈ mix.zip ez, σ pr.1 er = ((mA.getD pr.2 0 : ℕ) : ℤ)) →
    ¬(∀ pr ∈ mix.zip lz, σ pr.1 lr = ((mB.getD pr.2 0 : ℕ) : ℤ))

instance (proto : List (List ℕ)) (R : ℕ) (σ : ℕ → ℕ → ℤ) :
    Decidable (ccRange proto R σ) := by unfold ccRange; infer_instance

instance (proto : List (List ℕ)) (R : ℕ) (σ : ℕ → ℕ → ℤ) :
    Decidable (ccRoundDistinct proto R σ) := by unfold ccRoundDistinct; infer_instance

instance (proto : List (List ℕ)) (R : ℕ) (σ : ℕ → ℕ → ℤ) :
    Decidable (ccCrossDistinct proto R σ) := by unfold ccCrossDistinct; infer_instance

instance (proto : List (List ℕ)) (R S : ℕ) (σ : ℕ → ℕ → ℤ) :
    Decidable (ccSpacing proto R S σ) := by unfold ccSpacing; infer_instance

instance (proto : List (List ℕ)) (R : ℕ) (σ : ℕ → ℕ → ℤ) :
    Decidable (ccOverlap proto R σ) := by unfold ccOverlap; infer_instance

/-- The full conjunction of constraints `coalesce` adds to the solver. -/
def coalesceConstraints (proto : List (List ℕ)) (R S : ℕ) (σ : ℕ → ℕ → ℤ) : Prop :=
  ccRange proto R σ ∧ ccRoundDistinct proto R σ ∧ ccCrossDistinct proto R σ
    ∧ ccSpacing proto R S σ ∧ ccOverlap proto R σ

instance (proto : List (List ℕ)) (R S : ℕ) (σ : ℕ → ℕ → ℤ) :
    Decidable (coalesceConstraints proto R S σ) := by
  unfold coalesceConstraints
  infer_instance

/-- The `pseudo_team_to_team` dict lookup: the dict comprehension keeps the
last team whose model value equals `p`; a missing key (`KeyError`) is
`none`. -/
def pseudoToTeam (proto : List (List ℕ)) (σ : ℕ → ℕ → ℤ) (r : ℕ) (p : ℤ) : Option ℕ :=
  ((teamsOf proto).filter fun t => σ t r == p).getLast?

/-- Sequencing of fallible lookups over a list (`none` as soon as one lookup
fails, mirroring an uncaught exception). -/
def mapOpt (f : α → Option β) : List α → Option (List β)
  | [] => some []
  | a :: rest =>
    match f a, mapOpt f rest with
    | some b, some bs => some (b :: bs)
    | _, _ => none

/-- `assigned_match = [pseudo_team_to_team[p] for p in match]`. -/
def realizedMatch (proto : List (List ℕ)) (σ : ℕ → ℕ → ℤ) (r : ℕ)
    (mtch : List ℕ) : Option (List ℕ) :=
  mapOpt (fun p : ℕ => pseudoToTeam proto σ r (p : ℤ)) mtch

/-- `coalesce(proto_round, num_rounds, spacing)` run on a solver model `σ`:
the early return for `num_rounds == 1`, otherwise the extraction loop
appending every round's realized matches. -/
def coalesce (proto : List (List ℕ)) (R S : ℕ) (σ : ℕ → ℕ → ℤ) :
    Option (List (List ℕ)) :=
  if R = 1 then some proto
  else (mapOpt (fun r => mapOpt (realizedMatch proto σ r) proto) (List.range R)).map
    List.flatten

theorem mapOpt_length {f : α → Option β} :
    ∀ {l : List α} {bs : List β}, mapOpt f l = some bs → bs.length = l.length := by
  intro l
  induction l with
  | nil => intro bs h; simp [mapOpt] at h; simp [← h]
  | cons a rest ih =>
    intro bs h
    simp only [mapOpt] at h
    cases hfa : f a with
    | none => rw [hfa] at h; simp at h
    | some b =>
      cases hrest : mapOpt f rest with
      | none => rw [hfa, hrest] at h; simp at h
      | some bs' =>
        rw [hfa, hrest] at h
        simp only [Option.some.injEq] at h
        rw [← h]
        simp [ih hrest]

theorem mapOpt_getElem {f : α → Option β} :
    ∀ {l : List α} {bs : List β}, mapOpt f l = some bs →
    ∀ i (hi : i < l.length) (hb : i < bs.length),
      f l[i] = some bs[i] := by
  intro l
  induction l with
  | nil => intro bs h i hi; simp at hi
  | cons a rest ih =>
    intro bs h i hi hb
    simp only [mapOpt] at h
    cases hfa : f a with
    | none => rw [hfa] at h; simp at h
    | some b =>
      cases hrest : mapOpt f rest with
      | none => rw [hfa, hrest] at h; simp at h
      | some bs' =>
        rw [hfa, hrest] at h
        simp only [Option.some.injEq] at h
        subst h
        cases i with
        | zero => simpa using hfa
        | succ k =>
          simp only [List.getElem_cons_succ]
          exact ih hrest k (by simpa using hi) (by simpa using hb)

theorem mapOpt_mem {f : α → Option β} :
    ∀ {l : List α} {bs : List β}, mapOpt f l = some bs →
    ∀ {b}, b ∈ bs → ∃ a ∈ l, f a = some b := by
  intro l
  induction l with
  | nil =>
    intro bs h b hb
    simp [mapOpt] at h
    subst h
    simp at hb
  | cons a rest ih =>
    intro bs h b hb
    simp only [mapOpt] at h
    cases hfa : f a with
    | none => rw [hfa] at h; simp at h
    | some b' =>
      cases hrest : mapOpt f rest with
      | none => rw [hfa, hrest] at h; simp at h
      | some bs' =>
        rw [hfa, hrest] at h
        simp only [Option.some.injEq] at h
        subst h
        rcases List.mem_cons.1 hb with rfl | hb'
        · exact ⟨a, List.mem_cons_self a rest, hfa⟩
        · rcases ih hrest hb' with ⟨a', ha', hfa'⟩
          exact ⟨a', List.mem_cons_of_mem _ ha', hfa'⟩

theorem mem_teamsOf {proto : List (List ℕ)} {t : ℕ} :
    t ∈ teamsOf proto ↔ t ∈ proto.flatten := by
  unfold teamsOf
  rw [(List.perm_insertionSort (· ≤ ·) proto.flatten.dedup).mem_iff, List.mem_dedup]

theorem teamsOf_nodup (proto : List (List ℕ)) : (teamsOf proto).Nodup :=
  (List.perm_insertionSort (· ≤ ·) proto.flatten.dedup).nodup_iff.2 (List.nodup_dedup _)

theorem pseudoToTeam_spec {proto : List (List ℕ)} {σ : ℕ → ℕ → ℤ} {r : ℕ} {p : ℤ} {t : ℕ}
    (h : pseudoToTeam proto σ r p = some t) : t ∈ teamsOf proto ∧ σ t r = p := by
  unfold pseudoToTeam at h
  have hmem := List.mem_of_mem_getLast? h
  rcases List.mem_filter.1 hmem with ⟨h1, h2⟩
  exact ⟨h1, by simpa using h2⟩

/-- Whenever a realized match contains team `t`, the model maps `t` to one
of the match's pseudo-team ids. -/
theorem appears_pseudo {proto : List (List ℕ)} {σ : ℕ → ℕ → ℤ} {r : ℕ}
    {mtch rm : List ℕ} {t : ℕ} (h : realizedMatch proto σ r mtch = some rm)
    (ht : t ∈ rm) : t ∈ teamsOf proto ∧ ∃ u ∈ mtch, σ t r = (u : ℤ) := by
  rcases mapOpt_mem h ht with ⟨u, hu, hlook⟩
  rcases pseudoToTeam_spec hlook with ⟨hteam, hσ⟩
  exact ⟨hteam, u, hu, hσ⟩

theorem flatten_length_uniform {L : List (List α)} {M : ℕ} (h : ∀ l ∈ L, l.length = M) :
    L.flatten.length = L.length * M := by
  induction L with
  | nil => simp
  | cons l rest ih =>
    rw [List.flatten_cons, List.length_append, h l (List.mem_cons_self l rest),
      ih fun l' hl' => h l' (List.mem_cons_of_mem _ hl')]
    simp [Nat.succ_mul]
    omega

theorem flatten_getD_uniform {L : List (List α)} {M : ℕ} (h : ∀ l ∈ L, l.length = M)
    (d : α) : ∀ q p, q < L.length → p < M →
    L.flatten.getD (q * M + p) d = (L.getD q []).getD p d := by
  induction L with
  | nil => intro q p hq _; simp at hq
  | cons l rest ih =>
    intro q p hq hp
    rw [List.flatten_cons]
    cases q with
    | zero =>
      have hl : l.length = M := h l (List.mem_cons_self l rest)
      have hpl : p < l.length := by omega
      rw [List.getD_eq_getElem _ _ (by rw [List.length_append]; omega)]
      simp only [Nat.zero_mul, Nat.zero_add]
      rw [List.getElem_append_left hpl]
      have hgd0 : (l :: rest).getD 0 [] = l := rfl
      rw [hgd0, List.getD_eq_getElem _ _ hpl]
    | succ k =>
      have hl : l.length = M := h l (List.mem_cons_self l rest)
      have hrest := ih (fun l' hl' => h l' (List.mem_cons_of_mem _ hl')) k p (by simpa using hq) hp
      have hidx : (k + 1) * M + p = l.length + (k * M + p) := by rw [hl]; ring
      rw [hidx]
      have hgd : (l ++ rest.flatten).getD (l.length + (k * M + p)) d
          = rest.flatten.getD (k * M + p) d := by
        rcases Nat.lt_or_ge (k * M + p) rest.flatten.length with hlt | hge
        · rw [List.getD_eq_getElem _ _ (by rw [List.length_append]; omega),
            List.getD_eq_getElem _ _ hlt]
          rw [List.getElem_append_right (by omega)]
          congr 1
          omega
        · rw [List.getD_eq_default _ _ (by rw [List.length_append]; omega),
            List.getD_eq_default _ _ hge]
      rw [hgd, hrest]
      simp

theorem mapOpt_eq_map {f : α → Option β} (d : β) :
    ∀ {l : List α} {bs : List β}, mapOpt f l = some bs →
    bs = l.map fun a => (f a).getD d := by
  intro l
  induction l with
  | nil => intro bs h; simp [mapOpt] at h; simp [← h]
  | cons a rest ih =>
    intro bs h
    simp only [mapOpt] at h
    cases hfa : f a with
    | none => rw [hfa] at h; simp at h
    | some b =>
      cases hrest : mapOpt f rest with
      | none => rw [hfa, hrest] at h; simp at h
      | some bs' =>
        rw [hfa, hrest] at h
        simp only [Option.some.injEq] at h
        subst h
        rw [List.map_cons, ← ih hrest, hfa]
        rfl

theorem mapOpt_some_of_mem {f : α → Option β} :
    ∀ {l : List α} {bs : List β}, mapOpt f l = some bs →
    ∀ {a}, a ∈ l → ∃ b, f a = some b := by
  intro l
  induction l with
  | nil => intro bs _ a ha; simp at ha
  | cons x rest ih =>
    intro bs h a ha
    simp only [mapOpt] at h
    cases hfa : f x with
    | none => rw [hfa] at h; simp at h
    | some b =>
      cases hrest : mapOpt f rest with
      | none => rw [hfa, hrest] at h; simp at h
      | some bs' =>
        rcases List.mem_cons.1 ha with rfl | ha'
        · exact ⟨b, hfa⟩
        · exact ih hrest ha'

/-- A satisfying assignment for `coalesce([[0,1],[2,3]], 2, spacing=0)` whose
round-0 bijection is not the identity (it swaps teams 0 and 1). -/
def sigmaC : ℕ → ℕ → ℤ := fun t r =>
  if r = 0 then ([1, 0, 2, 3] : List ℤ).getD t 37 else ([0, 3, 1, 2] : List ℤ).getD t 37

/-- C4 (counterexample): nothing in the `coalesce` constraint system pins
round 0 to the identity bijection.  The assignment `sigmaC` satisfies every
constraint `coalesce([[0,1],[2,3]], 2, spacing=0)` poses, yet the first
`|ProtoRound| = 2` matches of the extracted schedule are `[[1,0],[2,3]]`,
not the proto-round `[[0,1],[2,3]]`. -/
theorem coalesce_round0_not_identity :
    coalesceConstraints [[0, 1], [2, 3]] 2 0 sigmaC
      ∧ coalesce [[0, 1], [2, 3]] 2 0 sigmaC = some [[1, 0], [2, 3], [0, 2], [3, 1]]
      ∧ ([[1, 0], [2, 3], [0, 2], [3, 1]] : List (List ℕ)).take 2 ≠ [[0, 1], [2, 3]] :=
  ⟨by decide, by decide, by decide⟩

/-- C4 (amended): for every successful coalesce over `num_rounds ≥ 2`, the
first `|ProtoRound|` matches of the output are the proto-round relabelled
matchwise through one fixed map `π` — the inverse of the round-0 bijection
chosen by the solver (so `σ (π u) 0 = u`), injective on the pseudo ids that
occur — but not necessarily the identity. -/
theorem coalesce_round0_relabelled (proto : List (List ℕ)) (R S : ℕ)
    (σ : ℕ → ℕ → ℤ) (sched : List (List ℕ)) (hR : 2 ≤ R)
    (hrun : coalesce proto R S σ = some sched) :
    ∃ π : ℕ → ℕ,
      sched.take proto.length = proto.map (fun m => m.map π)
      ∧ (∀ m ∈ proto, ∀ u ∈ m, σ (π u) 0 = (u : ℤ) ∧ π u ∈ teamsOf proto)
      ∧ (∀ m1 ∈ proto, ∀ u1 ∈ m1, ∀ m2 ∈ proto, ∀ u2 ∈ m2, π u1 = π u2 → u1 = u2) := by
  unfold coalesce at hrun
  rw [if_neg (by omega : ¬R = 1)] at hrun
  rcases Option.map_eq_some'.1 hrun with ⟨blocks, hblocks, hsched⟩
  have hR0 : (0 : ℕ) < (List.range R).length := by simp; omega
  have hblen : blocks.length = R := by simpa using mapOpt_length hblocks
  rcases hb : blocks with _ | ⟨b0, rest⟩
  · rw [hb] at hblen
    simp at hblen
    omega
  · rw [hb] at hblocks hsched
    have hget := mapOpt_getElem hblocks 0 hR0 (by simp)
    rw [List.getElem_range, List.getElem_cons_zero] at hget
    have hb0 : b0 = proto.map fun m => (realizedMatch proto σ 0 m).getD [] :=
      mapOpt_eq_map [] hget
    have hb0len : b0.length = proto.length := by rw [hb0]; simp
    have hmatches : ∀ m ∈ proto, ∃ rm, realizedMatch proto σ 0 m = some rm :=
      fun m hm => mapOpt_some_of_mem hget hm
    have hentry : ∀ m ∈ proto, ∀ u ∈ m, ∃ t, pseudoToTeam proto σ 0 (u : ℤ) = some t := by
      intro m hm u hu
      rcases hmatches m hm with ⟨rm, hrm⟩
      exact mapOpt_some_of_mem hrm hu
    refine ⟨fun u => (pseudoToTeam proto σ 0 (u : ℤ)).getD 0, ?_, ?_, ?_⟩
    · rw [← hsched, List.flatten_cons, ← hb0len, List.take_left, hb0]
      apply List.map_congr_left
      intro m hm
      rcases hmatches m hm with ⟨rm, hrm⟩
      rw [hrm]
      exact mapOpt_eq_map 0 hrm
    · intro m hm u hu
      rcases hentry m hm u hu with ⟨t, hlook⟩
      rcases pseudoToTeam_spec hlook with ⟨hteam, hσ⟩
      simp only [hlook, Option.getD_some]
      exact ⟨hσ, hteam⟩
    · intro m1 hm1 u1 hu1 m2 hm2 u2 hu2 heq
      rcases hentry m1 hm1 u1 hu1 with ⟨t1, hlook1⟩
      rcases hentry m2 hm2 u2 hu2 with ⟨t2, hlook2⟩
      rcases pseudoToTeam_spec hlook1 with ⟨-, hσ1⟩
      rcases pseudoToTeam_spec hlook2 with ⟨-, hσ2⟩
      simp only [hlook1, hlook2, Option.getD_some] at heq
      subst heq
      have hcast : (u1 : ℤ) = (u2 : ℤ) := by rw [← hσ1, ← hσ2]
      exact_mod_cast hcast

theorem coalesce_round0_relabelled_witness :
    ∃ π : ℕ → ℕ,
      ([[1, 0], [2, 3], [0, 2], [3, 1]] : List (List ℕ)).take
          ([[0, 1], [2, 3]] : List (List ℕ)).length
        = ([[0, 1], [2, 3]] : List (List ℕ)).map (fun m => m.map π)
      ∧ (∀ m ∈ ([[0, 1], [2, 3]] : List (List ℕ)), ∀ u ∈ m,
          sigmaC (π u) 0 = (u : ℤ) ∧ π u ∈ teamsOf [[0, 1], [2, 3]])
      ∧ (∀ m1 ∈ ([[0, 1], [2, 3]] : List (List ℕ)), ∀ u1 ∈ m1,
          ∀ m2 ∈ ([[0, 1], [2, 3]] : List (List ℕ)), ∀ u2 ∈ m2,
          π u1 = π u2 → u1 = u2) :=
  coalesce_round0_relabelled [[0, 1], [2, 3]] 2 0 sigmaC
    [[1, 0], [2, 3], [0, 2], [3, 1]] (by omega) (by decide)

theorem picks_getElem : ∀ (l : List α) (i : ℕ) (hi : i < l.length),
    (l[i], l.eraseIdx i) ∈ picks l := by
  intro l
  induction l with
  | nil => intro i hi; simp at hi
  | cons x xs ih =>
    intro i hi
    cases i with
    | zero => exact List.mem_cons_self _ _
    | succ k =>
      have hk : k < xs.length := by simpa using hi
      have := ih k hk
      simp only [picks, List.getElem_cons_succ, List.eraseIdx_cons_succ]
      refine List.mem_cons_of_mem _ ?_
      exact List.mem_map.2 ⟨(xs[k], xs.eraseIdx k), this, rfl⟩

theorem perm_mem_permsAux [DecidableEq α] :
    ∀ {n : ℕ} {l xs : List α}, l.length = n → xs.Perm l → xs ∈ permsAux n l := by
  intro n
  induction n with
  | zero =>
    intro l xs hn hperm
    have : l = [] := List.length_eq_zero.1 hn
    subst this
    rw [List.perm_nil.1 hperm]
    simp [permsAux]
  | succ k ih =>
    intro l xs hn hperm
    cases xs with
    | nil =>
      have := hperm.length_eq
      simp at this
      omega
    | cons x rest =>
      have hx : x ∈ l := hperm.subset (List.mem_cons_self x rest)
      have hrest : rest.Perm (l.erase x) :=
        (List.cons_perm_iff_perm_erase.1 hperm).2
      have hidx : l.indexOf x < l.length := List.indexOf_lt_length.2 hx
      have hget : l[l.indexOf x] = x := List.getElem_indexOf hidx
      have herase : l.erase x = l.eraseIdx (l.indexOf x) :=
        Eq.symm (List.eraseIdx_indexOf_eq_erase x l)
      have hlen : (l.eraseIdx (l.indexOf x)).length = k := by
        rw [← herase]
        rw [List.length_erase_of_mem hx]
        omega
      have hmem := picks_getElem l (l.indexOf x) hidx
      rw [hget] at hmem
      simp only [permsAux, List.mem_flatMap]
      refine ⟨(x, l.eraseIdx (l.indexOf x)), hmem, ?_⟩
      refine List.mem_map.2 ⟨rest, ?_, rfl⟩
      exact ih hlen (herase ▸ hrest)

theorem perm_mem_permutationsPy [DecidableEq α] {l xs : List α} (h : xs.Perm l) :
    xs ∈ permutationsPy l :=
  perm_mem_permsAux rfl h

/-- Completeness of the `kperms` enumeration: every list of `k` distinct
elements of `l` is among the `k`-permutations of `l`. -/
theorem mem_kperms_of [DecidableEq α] {l xs : List α} {k : ℕ}
    (hnd : xs.Nodup) (hsub : xs ⊆ l) (hlen : xs.length = k) : xs ∈ kperms k l := by
  rcases hnd.subperm hsub with ⟨s, hs1, hs2⟩
  refine List.mem_flatMap.2 ⟨s, ?_, ?_⟩
  · exact List.mem_sublistsLen.2 ⟨hs2, by rw [hs1.length_eq, hlen]⟩
  · exact perm_mem_permutationsPy hs1.symm

/-- Access to a successful coalesce extraction: the schedule is `R` blocks
of `|proto|` realized matches, indexed by `round * |proto| + position`. -/
theorem coalesce_access {proto : List (List ℕ)} {R S : ℕ} {σ : ℕ → ℕ → ℤ}
    {sched : List (List ℕ)} (hR : R ≠ 1) (hrun : coalesce proto R S σ = some sched) :
    sched.length = R * proto.length
      ∧ ∀ r p, r < R → p < proto.length →
        ∃ rm, realizedMatch proto σ r (proto.getD p []) = some rm
          ∧ sched.getD (r * proto.length + p) [] = rm := by
  unfold coalesce at hrun
  rw [if_neg hR] at hrun
  rcases Option.map_eq_some'.1 hrun with ⟨blocks, hblocks, hsched⟩
  have hblen : blocks.length = R := by simpa using mapOpt_length hblocks
  have hbuniform : ∀ bl ∈ blocks, bl.length = proto.length := by
    intro bl hbl
    rcases mapOpt_mem hblocks hbl with ⟨r, -, hfr⟩
    exact mapOpt_length hfr
  constructor
  · rw [← hsched, flatten_length_uniform hbuniform, hblen]
  · intro r p hr hp
    have hrblocks : r < blocks.length := by omega
    have hrl : r < (List.range R).length := by simpa using hr
    have hround := mapOpt_getElem hblocks r hrl hrblocks
    rw [List.getElem_range] at hround
    have hplen : p < blocks[r].length := by
      rw [hbuniform _ (List.getElem_mem hrblocks)]
      exact hp
    have hmatch := mapOpt_getElem hround p hp hplen
    refine ⟨blocks[r][p], ?_, ?_⟩
    · rw [← hmatch]
      congr 1
      rw [List.getD_eq_getElem _ _ hp]
    · rw [← hsched, flatten_getD_uniform hbuniform [] r p hrblocks hp,
        List.getD_eq_getElem _ _ hrblocks, List.getD_eq_getElem _ _ hplen]

theorem zoneCount_eq {proto : List (List ℕ)} {Z : ℕ} (hne : proto ≠ [])
    (hZ : ∀ m ∈ proto, m.length = Z) : zoneCount proto = Z := by
  rcases proto with _ | ⟨m0, rest⟩
  · exact absurd rfl hne
  · exact hZ m0 (List.mem_cons_self m0 rest)

/-- Helper for C10, for the ordered case `round i < round j`. -/
theorem coalesce_overlap_aux (proto : List (List ℕ)) (R S Z : ℕ) (σ : ℕ → ℕ → ℤ)
    (sched : List (List ℕ)) (hZ : ∀ m ∈ proto, m.length = Z) (hne : proto ≠ [])
    (hR : 2 ≤ R) (hcoal : coalesceConstraints proto R S σ)
    (hrun : coalesce proto R S σ = some sched)
    (i j : ℕ) (hi : i < sched.length) (hj : j < sched.length)
    (hij : i / proto.length < j / proto.length) :
    ((sched.getD i []).toFinset ∩ (sched.getD j []).toFinset).card < overlapK proto := by
  obtain ⟨hclen, haccess⟩ := coalesce_access (by omega) hrun
  obtain ⟨-, hdistinct, -, -, hoverlap⟩ := hcoal
  have hM : 0 < proto.length := by
    cases proto
    · exact absurd rfl hne
    · simp
  set M := proto.length with hMdef
  set ri := i / M with hridef
  set rj := j / M with hrjdef
  set pi := i % M with hpidef
  set pj := j % M with hpjdef
  have hriR : ri < R := (Nat.div_lt_iff_lt_mul hM).2 (by omega)
  have hrjR : rj < R := (Nat.div_lt_iff_lt_mul hM).2 (by omega)
  have hpiM : pi < M := Nat.mod_lt _ hM
  have hpjM : pj < M := Nat.mod_lt _ hM
  have hieq : ri * M + pi = i := by
    rw [hridef, hpidef, Nat.mul_comm (i / M) M]
    exact Nat.div_add_mod i M
  have hjeq : rj * M + pj = j := by
    rw [hrjdef, hpjdef, Nat.mul_comm (j / M) M]
    exact Nat.div_add_mod j M
  obtain ⟨rmA, hrmA, hschedA⟩ := haccess ri pi hriR hpiM
  obtain ⟨rmB, hrmB, hschedB⟩ := haccess rj pj hrjR hpjM
  rw [hieq] at hschedA
  rw [hjeq] at hschedB
  by_contra hcard
  push_neg at hcard
  obtain ⟨sub, hsub, hsubcard⟩ := Finset.exists_subset_card_eq hcard
  have hsubA : ∀ t ∈ sub, t ∈ rmA := by
    intro t ht
    have := hsub ht
    rw [Finset.mem_inter] at this
    rw [← hschedA]
    exact List.mem_toFinset.1 this.1
  have hsubB : ∀ t ∈ sub, t ∈ rmB := by
    intro t ht
    have := hsub ht
    rw [Finset.mem_inter] at this
    rw [← hschedB]
    exact List.mem_toFinset.1 this.2
  have hteams : ∀ t ∈ sub, t ∈ teamsOf proto := fun t ht =>
    (appears_pseudo hrmA (hsubA t ht)).1
  -- an ordering of `sub` that is a sublist of the (nodup) team list
  obtain ⟨mix, hmixperm, hmixsub⟩ :=
    ((Finset.nodup_toList sub).subperm
      fun t ht => hteams t (Finset.mem_toList.1 ht) : sub.toList.Subperm (teamsOf proto))
  have hmixmem : ∀ t ∈ mix, t ∈ sub := fun t ht =>
    Finset.mem_toList.1 (hmixperm.subset ht)
  have hmixnodup : mix.Nodup := hmixperm.nodup_iff.2 (Finset.nodup_toList sub)
  have hmixlen : mix.length = overlapK proto := by
    rw [hmixperm.length_eq, Finset.length_toList, hsubcard]
  have hmixSL : mix ∈ List.sublistsLen (overlapK proto) (teamsOf proto) :=
    List.mem_sublistsLen.2 ⟨hmixsub, hmixlen⟩
  -- pseudo values and zone indices of the mix teams in the two matches
  have hfactsA : ∀ t ∈ mix, (σ t ri).toNat ∈ proto.getD pi [] ∧ 0 ≤ σ t ri := by
    intro t ht
    obtain ⟨-, u, hu, hσ⟩ := appears_pseudo hrmA (hsubA t (hmixmem t ht))
    rw [hσ]
    simpa using hu
  have hfactsB : ∀ t ∈ mix, (σ t rj).toNat ∈ proto.getD pj [] ∧ 0 ≤ σ t rj := by
    intro t ht
    obtain ⟨-, u, hu, hσ⟩ := appears_pseudo hrmB (hsubB t (hmixmem t ht))
    rw [hσ]
    simpa using hu
  have hmAproto : proto.getD pi [] ∈ proto := by
    rw [List.getD_eq_getElem _ _ hpiM]
    exact List.getElem_mem hpiM
  have hmBproto : proto.getD pj [] ∈ proto := by
    rw [List.getD_eq_getElem _ _ hpjM]
    exact List.getElem_mem hpjM
  have hmAlen : (proto.getD pi []).length = Z := hZ _ hmAproto
  have hmBlen : (proto.getD pj []).length = Z := hZ _ hmBproto
  have hzAspec : ∀ t ∈ mix,
      (proto.getD pi []).indexOf (σ t ri).toNat < Z
        ∧ (proto.getD pi []).getD ((proto.getD pi []).indexOf (σ t ri).toNat) 0
            = (σ t ri).toNat := by
    intro t ht
    have hmem := (hfactsA t ht).1
    have hidx : (proto.getD pi []).indexOf (σ t ri).toNat < (proto.getD pi []).length :=
      List.indexOf_lt_length.2 hmem
    refine ⟨by omega, ?_⟩
    rw [List.getD_eq_getElem _ _ hidx]
    exact List.getElem_indexOf hidx
  have hzBspec : ∀ t ∈ mix,
      (proto.getD pj []).indexOf (σ t rj).toNat < Z
        ∧ (proto.getD pj []).getD ((proto.getD pj []).indexOf (σ t rj).toNat) 0
            = (σ t rj).toNat := by
    intro t ht
    have hmem := (hfactsB t ht).1
    have hidx : (proto.getD pj []).indexOf (σ t rj).toNat < (proto.getD pj []).length :=
      List.indexOf_lt_length.2 hmem
    refine ⟨by omega, ?_⟩
    rw [List.getD_eq_getElem _ _ hidx]
    exact List.getElem_indexOf hidx
  have hZC : zoneCount proto = Z := zoneCount_eq hne hZ
  have hinjA : ∀ t1 ∈ mix, ∀ t2 ∈ mix,
      (proto.getD pi []).indexOf (σ t1 ri).toNat = (proto.getD pi []).indexOf (σ t2 ri).toNat
        → t1 = t2 := by
    intro t1 h1 t2 h2 heq
    by_contra hne12
    have e1 := (hzAspec t1 h1).2
    have e2 := (hzAspec t2 h2).2
    rw [heq] at e1
    have htn : (σ t1 ri).toNat = (σ t2 ri).toNat := e1.symm.trans e2
    have hσeq : σ t1 ri = σ t2 ri := by
      have n1 := (hfactsA t1 h1).2
      have n2 := (hfactsA t2 h2).2
      omega
    exact hdistinct ri hriR t1 (hmixsub.subset h1) t2 (hmixsub.subset h2) hne12 hσeq
  have hinjB : ∀ t1 ∈ mix, ∀ t2 ∈ mix,
      (proto.getD pj []).indexOf (σ t1 rj).toNat = (proto.getD pj []).indexOf (σ t2 rj).toNat
        → t1 = t2 := by
    intro t1 h1 t2 h2 heq
    by_contra hne12
    have e1 := (hzBspec t1 h1).2
    have e2 := (hzBspec t2 h2).2
    rw [heq] at e1
    have htn : (σ t1 rj).toNat = (σ t2 rj).toNat := e1.symm.trans e2
    have hσeq : σ t1 rj = σ t2 rj := by
      have n1 := (hfactsB t1 h1).2
      have n2 := (hfactsB t2 h2).2
      omega
    exact hdistinct rj hrjR t1 (hmixsub.subset h1) t2 (hmixsub.subset h2) hne12 hσeq
  have hezmem : mix.map (fun t => (proto.getD pi []).indexOf (σ t ri).toNat)
      ∈ kperms (overlapK proto) (List.range (zoneCount proto)) := by
    apply mem_kperms_of
    · exact (List.nodup_map_iff_inj_on hmixnodup).2 hinjA
    · intro z hz
      rcases List.mem_map.1 hz with ⟨t, ht, rfl⟩
      rw [List.mem_range, hZC]
      exact (hzAspec t ht).1
    · rw [List.length_map, hmixlen]
  have hlzmem : mix.map (fun t => (proto.getD pj []).indexOf (σ t rj).toNat)
      ∈ kperms (overlapK proto) (List.range (zoneCount proto)) := by
    apply mem_kperms_of
    · exact (List.nodup_map_iff_inj_on hmixnodup).2 hinjB
    · intro z hz
      rcases List.mem_map.1 hz with ⟨t, ht, rfl⟩
      rw [List.mem_range, hZC]
      exact (hzBspec t ht).1
    · rw [List.length_map, hmixlen]
  have hearly : ∀ pr ∈ mix.zip (mix.map fun t => (proto.getD pi []).indexOf (σ t ri).toNat),
      σ pr.1 ri = ((proto.getD pi []).getD pr.2 0 : ℤ) := by
    intro pr hpr
    rw [← List.map_prod_left_eq_zip] at hpr
    rcases List.mem_map.1 hpr with ⟨t, ht, rfl⟩
    show σ t ri
      = (((proto.getD pi []).getD ((proto.getD pi []).indexOf (σ t ri).toNat) 0 : ℕ) : ℤ)
    rw [(hzAspec t ht).2]
    have := (hfactsA t ht).2
    omega
  have hlate : ∀ pr ∈ mix.zip (mix.map fun t => (proto.getD pj []).indexOf (σ t rj).toNat),
      σ pr.1 rj = ((proto.getD pj []).getD pr.2 0 : ℤ) := by
    intro pr hpr
    rw [← List.map_prod_left_eq_zip] at hpr
    rcases List.mem_map.1 hpr with ⟨t, ht, rfl⟩
    show σ t rj
      = (((proto.getD pj []).getD ((proto.getD pj []).indexOf (σ t rj).toNat) 0 : ℕ) : ℤ)
    rw [(hzBspec t ht).2]
    have := (hfactsB t ht).2
    omega
  exact hoverlap ri hriR rj hrjR hij (proto.getD pi []) hmAproto (proto.getD pj []) hmBproto
    mix hmixSL (mix.map fun t => (proto.getD pi []).indexOf (σ t ri).toNat) hezmem
    (mix.map fun t => (proto.getD pj []).indexOf (σ t rj).toNat) hlzmem hearly hlate

/-- Any two matches of `sched` lying in different rounds (blocks of `M`
consecutive matches) share strictly fewer than `K` teams. -/
def crossRoundOverlapBounded (M K : ℕ) (sched : List (List ℕ)) : Prop :=
  ∀ i < sched.length, ∀ j < sched.length, i / M ≠ j / M →
    ((sched.getD i []).toFinset ∩ (sched.getD j []).toFinset).card < K

/-- C10: in every schedule returned by `coalesce` with `num_rounds ≥ 2` over
matches of size `Z`, any two matches from different rounds share strictly
fewer than `max(Z-1, 2)` teams (constraint group 5's
`forbid_team_overlap`).  For `Z ≥ 4` this bound is strictly stronger than
the validators' no-rerun requirement, which only forbids sharing all `Z`
teams. -/
theorem coalesce_cross_round_overlap_bound
    (proto : List (List ℕ)) (R S Z : ℕ) (σ : ℕ → ℕ → ℤ) (sched : List (List ℕ))
    (hZ : ∀ m ∈ proto, m.length = Z) (hne : proto ≠ [])
    (hR : 2 ≤ R) (hcoal : coalesceConstraints proto R S σ)
    (hrun : coalesce proto R S σ = some sched) :
    crossRoundOverlapBounded proto.length (max (Z - 1) 2) sched := by
  intro i hi j hj hij
  have hK : overlapK proto = max (Z - 1) 2 := by
    rw [overlapK, zoneCount_eq hne hZ]
  rcases Nat.lt_or_ge (i / proto.length) (j / proto.length) with hlt | hge
  · rw [← hK]
    exact coalesce_overlap_aux proto R S Z σ sched hZ hne hR hcoal hrun i j hi hj hlt
  · have hgt : j / proto.length < i / proto.length := by omega
    rw [← hK, Finset.inter_comm]
    exact coalesce_overlap_aux proto R S Z σ sched hZ hne hR hcoal hrun j i hj hi hgt

/-- A satisfying assignment for `coalesce([[0,1],[2,3],[4,5]], 2, spacing=1)`
(identity in round 0; the round-1 bijection mixes the match pairs). -/
def sigmaD : ℕ → ℕ → ℤ := fun t r =>
  if r = 0 then (t : ℤ) else ([1, 2, 0, 5, 3, 4] : List ℤ).getD t 37

theorem coalesce_cross_round_overlap_bound_witness :
    crossRoundOverlapBounded ([[0, 1], [2, 3], [4, 5]] : List (List ℕ)).length (max (2 - 1) 2)
      [[0, 1], [2, 3], [4, 5], [2, 0], [1, 4], [5, 3]] :=
  coalesce_cross_round_overlap_bound [[0, 1], [2, 3], [4, 5]] 2 1 2 sigmaD
    [[0, 1], [2, 3], [4, 5], [2, 0], [1, 4], [5, 3]]
    (by decide) (by decide) (by omega) (by decide) (by decide)

theorem two_appearances (slot : ℕ → ℕ → ℤ) (Z t ws we i j z1 z2 : ℕ)
    (hij : i ≠ j) (hi1 : ws ≤ i) (hi2 : i < we) (hj1 : ws ≤ j) (hj2 : j < we)
    (hz1 : z1 < Z) (hz2 : z2 < Z)
    (h1 : slot i z1 = (t : ℤ)) (h2 : slot j z2 = (t : ℤ)) :
    2 ≤ numAppearancesInWindow slot Z t ws we := by
  unfold numAppearancesInWindow
  have hfi : 1 ≤ ∑ z ∈ Finset.range Z, if slot i z = (t : ℤ) then 1 else 0 := by
    have := Finset.single_le_sum (f := fun z => if slot i z = (t : ℤ) then 1 else 0)
      (fun z _ => Nat.zero_le _) (Finset.mem_range.2 hz1)
    simpa [h1] using this
  have hfj : 1 ≤ ∑ z ∈ Finset.range Z, if slot j z = (t : ℤ) then 1 else 0 := by
    have := Finset.single_le_sum (f := fun z => if slot j z = (t : ℤ) then 1 else 0)
      (fun z _ => Nat.zero_le _) (Finset.mem_range.2 hz2)
    simpa [h2] using this
  have hadd : (∑ z ∈ Finset.range Z, if slot i z = (t : ℤ) then 1 else 0)
      + (∑ z ∈ Finset.range Z, if slot j z = (t : ℤ) then 1 else 0)
      ≤ ∑ m ∈ Finset.Ico ws we, ∑ z ∈ Finset.range Z, if slot m z = (t : ℤ) then 1 else 0 :=
    Finset.add_le_sum
      (f := fun m => ∑ z ∈ Finset.range Z, if slot m z = (t : ℤ) then 1 else 0)
      (fun k _ => Nat.zero_le _) (Finset.mem_Ico.2 ⟨hi1, hi2⟩) (Finset.mem_Ico.2 ⟨hj1, hj2⟩) hij
  omega

/-- Within a proto-round built from a satisfying assignment (with
`0 < S < num_matches`), the same pseudo id cannot occupy zones of two
distinct matches at distance at most `S`: either the appearance-count
constraint (if `A ≤ 1`) or the sliding-window constraint (if `A > 1`)
is violated. -/
theorem proto_slot_window (T A Z S : ℕ) (slot : ℕ → ℕ → ℤ)
    (hproto : protoConstraints T A Z S slot) (hS : 0 < S)
    (hSM : S < num_matches T A Z) :
    ∀ p q z1 z2, p < q → q ≤ p + S → q < num_matches T A Z → z1 < Z → z2 < Z →
      slot p z1 = slot q z2 → False := by
  obtain ⟨hrange, -, hcount, hspace, -⟩ := hproto
  intro p q z1 z2 hpq hqS hqM hz1 hz2 heq
  have hpM : p < num_matches T A Z := by omega
  have hr := hrange p hpM z1 hz1
  have ht : (((slot p z1).toNat : ℕ) : ℤ) = slot p z1 := Int.toNat_of_nonneg hr.1
  have htT : (slot p z1).toNat < T := by omega
  have h1 : slot p z1 = (((slot p z1).toNat : ℕ) : ℤ) := ht.symm
  have h2 : slot q z2 = (((slot p z1).toNat : ℕ) : ℤ) := by rw [← heq]; exact ht.symm
  by_cases hA : 1 < A
  · have hws : min p (num_matches T A Z - S - 1) < num_matches T A Z - S := by omega
    have h2app := two_appearances slot Z (slot p z1).toNat
      (min p (num_matches T A Z - S - 1)) (min p (num_matches T A Z - S - 1) + S + 1)
      p q z1 z2 (by omega) (by omega) (by omega) (by omega) (by omega) hz1 hz2 h1 h2
    have := hspace hS hA (min p (num_matches T A Z - S - 1)) hws (slot p z1).toNat htT
    omega
  · have h2app := two_appearances slot Z (slot p z1).toNat 0 (num_matches T A Z)
      p q z1 z2 (by omega) (by omega) (by omega) (by omega) (by omega) hz1 hz2 h1 h2
    have := hcount (slot p z1).toNat htT
    omega

theorem build_getD (T A Z : ℕ) (slot : ℕ → ℕ → ℤ) (p : ℕ) (hp : p < num_matches T A Z) :
    (_build_proto_round T A Z slot).getD p [] = (List.range Z).map fun z => (slot p z).toNat := by
  unfold _build_proto_round
  rw [List.getD_eq_getElem _ _ (by simpa using hp)]
  simp

theorem getD_mem_drop {l : List α} {k p : ℕ} (hk : k ≤ p) (hp : p < l.length) (d : α) :
    l.getD p d ∈ l.drop k := by
  have h2 : p - k < (l.drop k).length := by simp; omega
  have hb1 : k + (p - k) < l.length := by omega
  have h3 : (l.drop k)[p - k] = l[k + (p - k)] := List.getElem_drop l
  rw [List.getD_eq_getElem _ _ hp]
  have h4 : l[k + (p - k)] = l[p] := by congr 1; omega
  rw [← h4, ← h3]
  exact List.getElem_mem h2

theorem getD_mem_take {l : List α} {k p : ℕ} (hp1 : p < k) (hp : p < l.length) (d : α) :
    l.getD p d ∈ l.take k := by
  have h2 : p < (l.take k).length := by simp; omega
  have h3 : (l.take k)[p] = l[p] := List.getElem_take l
  rw [List.getD_eq_getElem _ _ hp, ← h3]
  exact List.getElem_mem h2

/-- Within one realized round (equivalently within the proto-round), a team
cannot appear in two matches at distance at most `S`. -/
theorem proto_window_mem (T A Z S : ℕ) (slot : ℕ → ℕ → ℤ)
    (hproto : protoConstraints T A Z S slot) (hS : 0 < S)
    (hSM : S < num_matches T A Z) :
    ∀ p q t, p < q → q ≤ p + S → q < num_matches T A Z →
      t ∈ (_build_proto_round T A Z slot).getD p [] →
      t ∈ (_build_proto_round T A Z slot).getD q [] → False := by
  intro p q t hpq hqS hqM hp hq
  rw [build_getD T A Z slot p (by omega)] at hp
  rw [build_getD T A Z slot q hqM] at hq
  rcases List.mem_map.1 hp with ⟨z1, hz1, e1⟩
  rcases List.mem_map.1 hq with ⟨z2, hz2, e2⟩
  rw [List.mem_range] at hz1 hz2
  have hr1 := hproto.1 p (by omega) z1 hz1
  have hr2 := hproto.1 q hqM z2 hz2
  have heq : slot p z1 = slot q z2 := by omega
  exact proto_slot_window T A Z S slot hproto hS hSM p q z1 z2 hpq hqS hqM hz1 hz2 heq

/-- No team appears twice within any window of `S+1` consecutive matches of
`sched` (including windows spanning round boundaries). -/
def noTeamTwiceInWindows (S : ℕ) (sched : List (List ℕ)) : Prop :=
  ∀ i j, i < j → j ≤ i + S → j < sched.length →
    ∀ t ∈ sched.getD i [], t ∉ sched.getD j []

/-- C6: for every schedule produced by building a proto-round with spacing
`S > 0` (and `S` smaller than the number of matches per round) and
coalescing it over `R` rounds, no team appears twice within any window of
`S+1` consecutive matches of the flat schedule — including windows spanning
a round boundary, which are covered by coalesce constraint group 4. -/
theorem coalesce_spacing_windows (T A Z S R : ℕ) (slot σ : ℕ → ℕ → ℤ)
    (sched : List (List ℕ))
    (hS : 0 < S) (hSM : S < num_matches T A Z)
    (hproto : protoConstraints T A Z S slot)
    (hcoal : coalesceConstraints (_build_proto_round T A Z slot) R S σ)
    (hrun : coalesce (_build_proto_round T A Z slot) R S σ = some sched) :
    noTeamTwiceInWindows S sched := by
  intro i j hij hjS hjlen t hti htj
  have hlenM : (_build_proto_round T A Z slot).length = num_matches T A Z := by
    simp [_build_proto_round]
  by_cases hR1 : R = 1
  · have hsched : sched = _build_proto_round T A Z slot := by
      unfold coalesce at hrun
      rw [if_pos hR1] at hrun
      simpa using hrun.symm
    rw [hsched] at hjlen hti htj
    exact proto_window_mem T A Z S slot hproto hS hSM i j t hij hjS (by omega) hti htj
  · obtain ⟨hclen, haccess⟩ := coalesce_access hR1 hrun
    set proto := _build_proto_round T A Z slot with hprotodef
    set M := proto.length with hMdef
    have hM : 0 < M := by omega
    have hSMM : S < M := by omega
    set ri := i / M with hridef
    set rj := j / M with hrjdef
    set pi := i % M with hpidef
    set pj := j % M with hpjdef
    have hriR : ri < R := (Nat.div_lt_iff_lt_mul hM).2 (by omega)
    have hrjR : rj < R := (Nat.div_lt_iff_lt_mul hM).2 (by omega)
    have hpiM : pi < M := Nat.mod_lt _ hM
    have hpjM : pj < M := Nat.mod_lt _ hM
    have hieq : ri * M + pi = i := by
      rw [hridef, hpidef, Nat.mul_comm (i / M) M]
      exact Nat.div_add_mod i M
    have hjeq : rj * M + pj = j := by
      rw [hrjdef, hpjdef, Nat.mul_comm (j / M) M]
      exact Nat.div_add_mod j M
    have hrirj : ri ≤ rj := Nat.div_le_div_right (le_of_lt hij)
    obtain ⟨rmA, hrmA, hschedA⟩ := haccess ri pi hriR hpiM
    obtain ⟨rmB, hrmB, hschedB⟩ := haccess rj pj hrjR hpjM
    rw [hieq] at hschedA
    rw [hjeq] at hschedB
    rw [hschedA] at hti
    rw [hschedB] at htj
    obtain ⟨hteamt, u1, hu1, hσ1⟩ := appears_pseudo hrmA hti
    obtain ⟨-, u2, hu2, hσ2⟩ := appears_pseudo hrmB htj
    by_cases hcase : ri = rj
    · -- same round: the proto-round's own spacing is violated
      have hu12 : u1 = u2 := by
        have : (u1 : ℤ) = (u2 : ℤ) := by
          rw [← hσ1, hcase, hσ2]
        exact_mod_cast this
      have hjeq' : ri * M + pj = j := by rw [hcase]; exact hjeq
      have hpipj : pi < pj := by omega
      have hpjS : pj ≤ pi + S := by omega
      exact proto_window_mem T A Z S slot hproto hS hSM pi pj u1 hpipj hpjS (by omega)
        hu1 (hu12 ▸ hu2)
    · by_cases hcase2 : rj = ri + 1
      · -- adjacent rounds: boundary spacing constraint group 4
        have hexp : (ri + 1) * M = ri * M + M := by ring
        have hjeq' : ri * M + M + pj = j := by
          rw [← hexp, ← hcase2]
          exact hjeq
        have hMpj : M + pj ≤ pi + S := by omega
        have hsnS : M - 1 - pi < S := by omega
        have hccS := hcoal.2.2.2.1 (M - 1 - pi) hsnS ri (by omega)
        have hepmem : u1 ∈ endWindowTeams proto (M - 1 - pi) := by
          show u1 ∈ (proto.drop (proto.length - (M - 1 - pi + 1))).flatten
          refine List.mem_flatten.2 ⟨proto.getD pi [], ?_, hu1⟩
          exact getD_mem_drop (by omega) (by omega) []
        have hspmem : u2 ∈ startWindowTeams proto S (M - 1 - pi) := by
          show u2 ∈ (proto.take (S - (M - 1 - pi))).flatten
          refine List.mem_flatten.2 ⟨proto.getD pj [], ?_, hu2⟩
          exact getD_mem_take (by omega) (by omega) []
        refine hccS u1 hepmem u2 hspmem t hteamt ⟨hσ1, ?_⟩
        rw [← hcase2]
        exact hσ2
      · -- rounds at distance ≥ 2 cannot be bridged by a window of S+1 < M+1
        have hrj2 : ri + 2 ≤ rj := by omega
        have hmul : (ri + 2) * M ≤ rj * M := Nat.mul_le_mul_right M hrj2
        have hexp : (ri + 2) * M = ri * M + 2 * M := by ring
        omega

/-- A satisfying assignment for `_build_proto_round(6, 1, 2, 1)`, extracting
to the proto-round `[[0,1],[2,3],[4,5]]` (which `sigmaD` then coalesces). -/
def slotD : ℕ → ℕ → ℤ :=
  fun m z => (([[0, 1], [2, 3], [4, 5]] : List (List ℤ)).getD m []).getD z 37

theorem coalesce_spacing_windows_witness :
    noTeamTwiceInWindows 1 [[0, 1], [2, 3], [4, 5], [2, 0], [1, 4], [5, 3]] :=
  coalesce_spacing_windows 6 1 2 1 2 slotD sigmaD
    [[0, 1], [2, 3], [4, 5], [2, 0], [1, 4], [5, 3]]
    (by decide) (by decide) (by decide) (by decide) (by decide)

/-! ## The `yabms.validate` package

Validators are generators yielding findings built by `error(message)` /
`warning(message)` of `validators.py`, which take a SINGLE positional
argument and return a `(level, message)` pair.  Every registered validator,
however, invokes them with TWO arguments (`error("code", f"...")`), and
`validate/cli.py` unpacks findings as `(code, message)` pairs — so each
attempted yield raises `TypeError` at the call site.  We model a validator
as the list of its attempted yields: `.ok (level, message)` for a
successful `error`/`warning` call, `.error` for an exception raised at that
point of the generator (a wrong-arity call, a `max`/`min` of an empty
sequence, or `", ".join` applied to integers). -/

inductive PyErr where
  | typeError (fn : String)
  | valueError (msg : String)
deriving DecidableEq, Repr

/-- Calling `error(*args)` of `validators.py`: one argument yields the
`("error", message)` pair; any other arity raises `TypeError`. -/
def errorCall (args : List String) : Except PyErr (String × String) :=
  match args with
  | [message] => .ok ("error", message)
  | _ => .error (.typeError "error")

/-- Calling `warning(*args)` of `validators.py`. -/
def warningCall (args : List String) : Except PyErr (String × String) :=
  match args with
  | [message] => .ok ("warning", message)
  | _ => .error (.typeError "warning")

def listMax (l : List ℕ) : ℕ := l.foldr max 0

def listMin : List ℕ → ℕ
  | [] => 0
  | x :: xs => xs.foldl min x

/-- `sorted(...)` on a set of naturals. -/
def sortedTeams (l : List ℕ) : List ℕ := List.insertionSort (· ≤ ·) l.dedup

/-- `validator_dupes.validate_dupes`. -/
def validate_dupes (schedule : List (List ℕ)) : List (Except PyErr (String × String)) :=
  schedule.enum.flatMap fun ixm =>
    (List.insertionSort (· ≤ ·) (ixm.2.dedup.filter fun team => 1 < ixm.2.count team)).map
      fun team =>
        errorCall ["dupe", "Team " ++ toString team ++ " appears in match "
          ++ toString ixm.1 ++ " " ++ toString (ixm.2.count team) ++ " times"]

/-- `validator_equal_appearances.validate_equal_appearances`: `max` of an
empty counter raises `ValueError`; otherwise each team whose count differs
from the maximum triggers a two-argument `error` call. -/
def validate_equal_appearances (schedule : List (List ℕ)) :
    List (Except PyErr (String × String)) :=
  let allTeams := schedule.flatten
  if allTeams = [] then [.error (.valueError "max arg is an empty sequence")]
  else
    let most := listMax (allTeams.dedup.map fun t => allTeams.count t)
    ((sortedTeams allTeams).filter fun team => allTeams.count team ≠ most).map fun team =>
      errorCall ["unequal-appearances", "Team " ++ toString team ++ " appears "
        ++ toString (allTeams.count team) ++ " times, expected " ++ toString most]

/-- `validator_facing.validate_facing` (thresholds 3/4).  The facing count
of a pair is the number of matches containing both teams; this matches the
`itertools.combinations` counting because any schedule with an in-match
duplicate never reaches this validator (`validate_dupes` raises first). -/
def validate_facing (schedule : List (List ℕ)) : List (Except PyErr (String × String)) :=
  let all_teams := sortedTeams schedule.flatten
  let pairs := all_teams.enum.flatMap fun ixl =>
    (all_teams.drop (ixl.1 + 1)).map fun r => (ixl.2, r)
  if pairs = [] then [.error (.valueError "max arg is an empty sequence")]
  else
    let fc := fun (l r : ℕ) => (schedule.filter fun m => decide (l ∈ m ∧ r ∈ m)).length
    let most := listMax (pairs.map fun p => fc p.1 p.2)
    pairs.flatMap fun p =>
      if most - fc p.1 p.2 < 3 then []
      else if most - fc p.1 p.2 < 4 then
        [warningCall ["unequal-facings", "Team " ++ toString p.1 ++ " and " ++ toString p.2
          ++ " face each other " ++ toString (fc p.1 p.2) ++ " times, ideally "
          ++ toString most]]
      else
        [errorCall ["unequal-facings", "Team " ++ toString p.1 ++ " and " ++ toString p.2
          ++ " face only " ++ toString (fc p.1 p.2) ++ " times, ideally " ++ toString most]]

/-- `validator_numeric.validate_numeric`: teams are naturals here, so the
`int()` conversion never fails; `min` of an empty team set raises
`ValueError`; the two warning sites are two-argument `warning` calls. -/
def validate_numeric (schedule : List (List ℕ)) : List (Except PyErr (String × String)) :=
  let all_teams := sortedTeams schedule.flatten
  if all_teams = [] then [.error (.valueError "min arg is an empty sequence")]
  else
    let lowest := listMin all_teams
    let highest := listMax all_teams
    if lowest ≠ 1 then
      [warningCall ["non-one-indexed", "Team numbers are not one-indexed, lowest is "
        ++ toString lowest]]
    else if highest ≠ all_teams.length then
      [warningCall ["non-consecutive", "Team numbers are not consecutive, highest is "
        ++ toString highest ++ " but should be " ++ toString all_teams.length]]
    else []

/-- `validator_rerun.validate_reruns`: on the first repeated team set the
source evaluates `", ".join(sorted(match))`, which raises `TypeError` for
integer team labels before the (also ill-arity) `error` call. -/
def validate_reruns (schedule : List (List ℕ)) : List (Except PyErr (String × String)) :=
  if (schedule.enum.any fun ixm =>
      (schedule.take ixm.1).any fun earlier => earlier.toFinset = ixm.2.toFinset) then
    [.error (.typeError "join")]
  else []

/-- `validator_size.validate_size`. -/
def validate_size (schedule : List (List ℕ)) : List (Except PyErr (String × String)) :=
  schedule.enum.flatMap fun ixm =>
    if ixm.2.length ≠ (schedule.headD []).length then
      [errorCall ["wrong-size", "Match " ++ toString ixm.1 ++ " has "
        ++ toString ixm.2.length ++ " teams, expected "
        ++ toString (schedule.headD []).length]]
    else []

/-- `validator_spacing.validate_spacing` with `MIN_SPACING = 1`
(window size 2): iterates `schedule[:-1]` and compares with the next
match. -/
def validate_spacing (schedule : List (List ℕ)) : List (Except PyErr (String × String)) :=
  schedule.dropLast.enum.flatMap fun ixm =>
    ixm.2.flatMap fun team =>
      ((schedule.drop (ixm.1 + 1)).take 1).flatMap fun other =>
        if team ∈ other then
          [errorCall ["spacing", "Team " ++ toString team ++ " appears in match "
            ++ toString ixm.1 ++ " and " ++ toString (ixm.1 + 2)]]
        else []

/-- `validator_zone_distribution.validate_zone_distribution` (teams iterated
in sorted order; the Python `set` iteration order is unspecified and only
affects which of the crashing yields comes first). -/
def validate_zone_distribution (schedule : List (List ℕ)) :
    List (Except PyErr (String × String)) :=
  let numZones := (schedule.headD []).length
  (sortedTeams schedule.flatten).flatMap fun team =>
    if numZones = 0 then [.error (.valueError "min arg is an empty sequence")]
    else
      let za := (List.range numZones).map fun z => (appearanceEvents schedule).count (team, z)
      let unb := listMax za - listMin za
      if unb = 0 then []
      else if unb = 1 then
        [warningCall ["unbalanced-passable", "Team " ++ toString team
          ++ " has a 1-appearance unbalance"]]
      else
        [errorCall ["unbalanced-impassable", "Team " ++ toString team
          ++ " has a multi-appearance unbalance"]]

/-- `_run_validator`: consume the generator, appending error/warning
messages; an unknown level raises `ValueError`; an exception inside the
generator propagates.  (The `return False` stop protocol of `validators.py`
is never used by any registered validator, so it is not modelled.) -/
def processItems : List (Except PyErr (String × String)) → List String → List String →
    Except PyErr (List String × List String)
  | [], ws, es => .ok (ws, es)
  | .error e :: _, _, _ => .error e
  | .ok (level, message) :: rest, ws, es =>
    if level = "error" then processItems rest ws (es ++ [message])
    else if level = "warning" then processItems rest (ws ++ [message]) es
    else .error (.valueError ("Unknown level " ++ level))

/-- The registration order of `validator_registry.register_all_validators`. -/
def _VALIDATORS : List ((List (List ℕ)) → List (Except PyErr (String × String))) :=
  [validate_dupes, validate_equal_appearances, validate_facing, validate_numeric,
   validate_reruns, validate_size, validate_spacing, validate_zone_distribution]

def runPipeline : List ((List (List ℕ)) → List (Except PyErr (String × String))) →
    List (List ℕ) → List String → List String → Except PyErr (List String × List String)
  | [], _, ws, es => .ok (ws, es)
  | v :: rest, schedule, ws, es =>
    match processItems (v schedule) ws es with
    | .error e => .error e
    | .ok (ws', es') => runPipeline rest schedule ws' es'

/-- `run_validators(schedule)`: the blank-schedule early exit, then all
registered validators in order; an exception anywhere propagates out. -/
def run_validators (schedule : List (List ℕ)) : Except PyErr (List String × List String) :=
  if schedule = [] then .ok ([], ["No matches in schedule"])
  else runPipeline _VALIDATORS schedule [] []

/-- C1 (code bug): on the claim's own scenario — team 5 appears 3 times
while every other team appears 4 times — `run_validators` does not return
an equal-appearances finding: `validate_equal_appearances` calls
`error("unequal-appearances", f"Team 5 ...")` with two arguments while
`error` accepts exactly one, so the pipeline raises `TypeError` instead of
returning structured data.  (Every other validator finding crashes the same
way; the one-argument `error` signature contradicts all of its callers and
the `(code, message)` unpacking in `validate/cli.py`.) -/
instance {ε α : Type} [DecidableEq ε] [DecidableEq α] : DecidableEq (Except ε α) := fun a b =>
  match a, b with
  | .error e1, .error e2 =>
    if h : e1 = e2 then .isTrue (by rw [h])
    else .isFalse fun hc => h (by injection hc)
  | .ok a1, .ok a2 =>
    if h : a1 = a2 then .isTrue (by rw [h])
    else .isFalse fun hc => h (by injection hc)
  | .error _, .ok _ => .isFalse fun hc => Except.noConfusion hc
  | .ok _, .error _ => .isFalse fun hc => Except.noConfusion hc

theorem run_validators_raises_on_unequal_appearances :
    run_validators [[4, 5], [4, 5], [4, 5], [4]] = Except.error (PyErr.typeError "error") := by
  decide
